import Mathlib

/-!
# Verification of the item-transport coordinator backend

Shallow embedding of the backend's item-name matching engine
(`backend/item_filter.py`), the machine/peripheral/route data model
(`backend/models.py`), the API handlers (`backend/routes.py`) and the
liveness sweep (`backend/peripheral_discovery.py`), together with
theorems settling the specification claims.

Strings manipulated by the matching engine are modelled as `List Char`
(the engine only uses character-level operations); timestamps are
modelled as integers (ISO timestamps compare chronologically exactly
when they compare lexicographically, which is how SQLite compares them).
-/

namespace ItemFilter

/-- Strings of the matching engine, as character lists. -/
abbrev Str := List Char

/-- Python `str.lower()` (ASCII names only appear in the catalogs). -/
def lower (s : Str) : Str := s.map Char.toLower

/-- Python `str.strip()`: drop whitespace from both ends. -/
def stripWs (s : Str) : Str :=
  ((s.dropWhile Char.isWhitespace).reverse.dropWhile Char.isWhitespace).reverse

/-- Python `str.startswith`: `isPre p s` holds when `p` is a prefix of `s`. -/
def isPre : Str → Str → Bool
  | [], _ => true
  | _ :: _, [] => false
  | a :: as, b :: bs => a = b && isPre as bs

/-! ## difflib.SequenceMatcher

`similarity` in `item_filter.py` is
`SequenceMatcher(None, a.lower(), b.lower()).ratio()`.  We embed the
Ratcliff–Obershelp computation difflib performs: repeatedly take the
longest matching block (earliest in `a`, then earliest in `b`, among the
longest) and recurse on both sides.  The autojunk heuristic of difflib
only triggers for second arguments of length ≥ 200, far beyond any item
name, so it is not modelled. -/

/-- Length of the common prefix of two character lists. -/
def extLen : Str → Str → Nat
  | a :: as, b :: bs => if a = b then extLen as bs + 1 else 0
  | _, _ => 0

/-- All candidate blocks `(i, j, k)`: the common prefix of `a.drop i`
and `b.drop j` has length `k`.  Enumerated with `i` ascending, then `j`
ascending, matching difflib's scan order. -/
def cands (a b : Str) : List (Nat × Nat × Nat) :=
  (List.range a.length).flatMap fun i =>
    (List.range b.length).map fun j => (i, j, extLen (a.drop i) (b.drop j))

/-- `find_longest_match`: the first candidate (in scan order) whose
block length is maximal; `(0, 0, 0)` when there is no match at all. -/
def flm (a b : Str) : Nat × Nat × Nat :=
  (cands a b).foldl (fun acc c => if acc.2.2 < c.2.2 then c else acc) (0, 0, 0)

/-- Total size of all matching blocks, fuelled structural version of the
recursion in `SequenceMatcher.get_matching_blocks`. -/
def rmatchF : Nat → Str → Str → Nat
  | 0, _, _ => 0
  | fuel + 1, a, b =>
    let c := flm a b
    if c.2.2 = 0 then 0
    else
      rmatchF fuel (a.take c.1) (b.take c.2.1) + c.2.2 +
        rmatchF fuel (a.drop (c.1 + c.2.2)) (b.drop (c.2.1 + c.2.2))

/-- Total number of matched characters between `a` and `b`. -/
def rmatch (a b : Str) : Nat := rmatchF (a.length + b.length) a b

/-! Similarity scores are exact nonnegative rationals, carried as
numerator/denominator pairs and compared by cross-multiplication.  The
Python code compares double-precision floats; for the magnitudes
occurring here (denominators bounded by the summed string lengths) the
float comparisons agree with the exact rational ones, so this carries
no approximation. -/

/-- A similarity score `n / d` (`d` never 0 where scores arise). -/
abbrev Score := Nat × Nat

/-- The rational value of a score. -/
def scoreQ (s : Score) : ℚ := (s.1 : ℚ) / (s.2 : ℚ)

/-- `≤` on scores, by cross-multiplication. -/
def sLe (a b : Score) : Bool := decide (a.1 * b.2 ≤ b.1 * a.2)

/-- `<` on scores, by cross-multiplication. -/
def sLt (a b : Score) : Bool := decide (a.1 * b.2 < b.1 * a.2)

/-- `FUZZY_MATCH_THRESHOLD = 0.6` from `config.py`. -/
def FUZZY_MATCH_THRESHOLD : Score := (3, 5)

/-- `SequenceMatcher.ratio()`: `2*M/T`, and `1.0` when both inputs are
empty (difflib's `_calculate_ratio`). -/
def ratioS (a b : Str) : Score :=
  if a.length + b.length = 0 then (1, 1)
  else (2 * rmatch a b, a.length + b.length)

/-- `similarity(a, b)` from `item_filter.py`. -/
def similarity (a b : Str) : Score := ratioS (lower a) (lower b)

/-! ## Abbreviation expansion

`ABBREVIATION_MAP` from `config.py` and `expand_abbreviation` from
`item_filter.py`.  Python splits on `'_'`, replaces the last part when
it is a key of the map, and rejoins with `'_'`. -/

/-- `ABBREVIATION_MAP` from `config.py`. -/
def ABBREVIATION_MAP : List (Str × Str) :=
  [("b".data, "block".data), ("i".data, "ingot".data), ("n".data, "nugget".data),
   ("g".data, "gem".data), ("d".data, "dust".data), ("p".data, "plate".data)]

/-- Python `s.split('_')`: never returns an empty list. -/
def splitU : Str → List Str
  | [] => [[]]
  | c :: cs =>
    if c = '_' then [] :: splitU cs
    else
      match splitU cs with
      | p :: ps => (c :: p) :: ps
      | [] => [[c]]

/-- Python `'_'.join(parts)`. -/
def joinU : List Str → Str
  | [] => []
  | [p] => p
  | p :: ps => p ++ '_' :: joinU ps

/-- `expand_abbreviation(item_input)`: when the input has at least two
`'_'`-separated parts and the last part is a key of `ABBREVIATION_MAP`,
replace the last part by its expansion. -/
def expand_abbreviation (s : Str) : Str :=
  match (splitU s).reverse with
  | last :: p2 :: revRest =>
    match (ABBREVIATION_MAP.find? fun kv => decide (kv.1 = last)).map (·.2) with
    | some v => joinU (((p2 :: revRest).reverse) ++ [v])
    | none => s
  | _ => s

/-! ## The lowercased catalog dictionary

`item_list_lower = {item.lower(): item for item in item_list}`: keys in
order of first occurrence, each key mapped to the *last* original item
with that lowercasing. -/

/-- One step of Python dict construction: overwrite in place if the key
exists, else append. -/
def dictUpd (d : List (Str × Str)) (k v : Str) : List (Str × Str) :=
  if d.any fun kv => decide (kv.1 = k) then
    d.map fun kv => if kv.1 = k then (k, v) else kv
  else d ++ [(k, v)]

/-- The dictionary `item_list_lower`. -/
def lowerDict (items : List Str) : List (Str × Str) :=
  items.foldl (fun d it => dictUpd d (lower it) it) []

/-- Python `k in d` / `d[k]` on the association list. -/
def dfind (d : List (Str × Str)) (k : Str) : Option Str :=
  (d.find? fun kv => decide (kv.1 = k)).map (·.2)

/-! ## `fuzzy_match_item` -/

/-- The tier labels returned by the matcher (`'exact'`, `'abbreviation'`,
`'prefix'`, `'fuzzy'` in the source). -/
inductive MatchKind
  | exact
  | abbr
  | pref
  | fuzzy
deriving DecidableEq, Repr

/-- Stable insertion (ascending by key length) used to model
`prefix_matches.sort(key=lambda x: len(x[1]))`; entries here are the
dict's `(item_lower, item_original)` pairs, whose first component is the
Python sort key's string. -/
def insLen (x : Str × Str) : List (Str × Str) → List (Str × Str)
  | [] => [x]
  | y :: ys => if y.1.length < x.1.length then y :: insLen x ys else x :: y :: ys

/-- Stable sort ascending by key length (Python `list.sort` is stable,
so the output agrees with CPython's on every input). -/
def sortLen : List (Str × Str) → List (Str × Str)
  | [] => []
  | x :: xs => insLen x (sortLen xs)

/-- The tier-4 loop of `fuzzy_match_item`: best fuzzy score so far and
its item, updated on a strictly greater score that meets the
threshold. -/
def fuzzyFold (t : Str) (d : List (Str × Str)) : Option Str × Score :=
  d.foldl
    (fun acc kv =>
      let sc := similarity t kv.1
      if sLt acc.2 sc && sLe FUZZY_MATCH_THRESHOLD sc then (some kv.2, sc) else acc)
    (none, (0, 1))

/-- `fuzzy_match_item(item_input, item_list)`; `none` is the Python
`(None, None)` result. -/
def fuzzy_match_item (tok : Str) (items : List Str) : Option (Str × MatchKind) :=
  let t := stripWs (lower tok)
  let d := lowerDict items
  match dfind d t with
  | some orig => some (orig, .exact)
  | none =>
    let ex := expand_abbreviation t
    match (if ex ≠ t then dfind d (lower ex) else none) with
    | some orig => some (orig, .abbr)
    | none =>
      match sortLen (d.filter fun kv => isPre t kv.1) with
      | kv :: _ => some (kv.2, .pref)
      | [] =>
        match (fuzzyFold t d).1 with
        | some orig => if orig = [] then none else some (orig, .fuzzy)
        | none => none

/-! ## `filter_items_by_name` -/

/-- `match_priority = {'exact': 4, 'abbreviation': 3, 'prefix': 2, 'fuzzy': 1}`. -/
def matchPriority : MatchKind → Nat
  | .exact => 4
  | .abbr => 3
  | .pref => 2
  | .fuzzy => 1

/-- The classification loop body of `filter_items_by_name`: exact, else
prefix, else abbreviation, else fuzzy when the score meets the
threshold; the numeric scores are the source's `1.0`, `0.8`, `0.9` and
the similarity score. -/
def classify (t : Str) (item : Str) : Option (Str × MatchKind × Score) :=
  let il := lower item
  if il = t then some (item, .exact, (1, 1))
  else if isPre t il then some (item, .pref, (4, 5))
  else
    let ex := expand_abbreviation t
    if ex ≠ t ∧ il = lower ex then some (item, .abbr, (9, 10))
    else
      let sc := similarity t il
      if sLe FUZZY_MATCH_THRESHOLD sc then some (item, .fuzzy, sc) else none

/-- Strict `<` on Python sort keys `(match_priority, score)`. -/
def keyLt (a b : Nat × Score) : Bool :=
  a.1 < b.1 || (a.1 = b.1 && sLt a.2 b.2)

/-- The sort key of a classified match. -/
def mKey (m : Str × MatchKind × Score) : Nat × Score := (matchPriority m.2.1, m.2.2)

/-- Stable insertion, descending by `(priority, score)`. -/
def insMatch (x : Str × MatchKind × Score) :
    List (Str × MatchKind × Score) → List (Str × MatchKind × Score)
  | [] => [x]
  | y :: ys => if keyLt (mKey x) (mKey y) then y :: insMatch x ys else x :: y :: ys

/-- Stable sort, descending by `(priority, score)`: the model of
`matches.sort(key=..., reverse=True)` (stable in CPython, so the output
agrees with CPython's on every input). -/
def sortMatches : List (Str × MatchKind × Score) → List (Str × MatchKind × Score)
  | [] => []
  | x :: xs => insMatch x (sortMatches xs)

/-- `filter_items_by_name(item_input, item_list)`. -/
def filter_items_by_name (tok : Str) (items : List Str) : List Str :=
  if tok = [] then items
  else
    let t := stripWs (lower tok)
    (sortMatches (items.filterMap (classify t))).map (·.1)

/-! ## A recursive characterisation of the fuzzy tier

`bestFuzzy` restates the spec's fuzzy tier directly: the
first-encountered entry whose score is maximal among entries meeting
the threshold, with its score; `none` when no entry reaches the
threshold.  It is proved equal to the accumulator loop `fuzzyFold` the
code runs. -/

/-- The first-encountered highest thresholded scorer: the head entry
wins over the best of the tail unless the tail's best is strictly
better. -/
def bestFuzzy (t : Str) : List (Str × Str) → Option (Str × Score)
  | [] => none
  | kv :: rest =>
    match bestFuzzy t rest with
    | none =>
      if sLe FUZZY_MATCH_THRESHOLD (similarity t kv.1) then
        some (kv.2, similarity t kv.1)
      else none
    | some xm =>
      if sLe xm.2 (similarity t kv.1) then some (kv.2, similarity t kv.1) else some xm

end ItemFilter

namespace Models

/-!
## Data model (`backend/models.py`) and handlers (`backend/routes.py`)

Rows are records, tables are lists in insertion order, and SQLite's
`AUTOINCREMENT` columns are explicit counters.  ISO-8601 `last_seen` /
`created_at` strings compare lexicographically exactly as the instants
they denote compare chronologically, so timestamps are integers.
A handler takes the authenticated user id (resp. session user id)
produced by the auth layer, which is out of scope, plus the request
payload, and returns an `ApiResult` with the successor state.
-/

/-- A row of the `machines` table. -/
structure MachineR where
  id : Nat
  user_id : Nat
  api_key_id : Option Nat
  name : String
  last_seen : Int
  status : String
deriving DecidableEq, Repr

/-- A row of the `peripherals` table. -/
structure PeripheralR where
  id : Nat
  machine_id : Nat
  name : String
  type : Option String
  location : Option String
  last_updated : Int
deriving DecidableEq, Repr

/-- A row of the `routes` table (`enabled` is 0/1 in SQLite). -/
structure RouteR where
  id : Nat
  user_id : Nat
  name : String
  source_peripheral_id : Nat
  dest_peripheral_id : Nat
  item_filter : Option String
  enabled : Bool
  created_at : Int
deriving DecidableEq, Repr

/-- The database: every table, plus the `AUTOINCREMENT` counters used
by inserts.  `route_items` rows are `(route_id, item_name)`. -/
structure ServerState where
  machines : List MachineR
  peripherals : List PeripheralR
  routes : List RouteR
  route_items : List (Nat × String)
  next_peripheral_id : Nat
  next_route_id : Nat
deriving DecidableEq, Repr

/-- `MACHINE_TIMEOUT = 60` from `config.py`. -/
def MACHINE_TIMEOUT : Int := 60

/-- `Machine.get_by_id`. -/
def Machine_get_by_id (s : ServerState) (mid : Nat) : Option MachineR :=
  s.machines.find? fun m => decide (m.id = mid)

/-- `Machine.update_status(machine_id, status)`: an SQL `UPDATE ... WHERE
id = ?`, touching every matching row, executed at instant `now`.  The
UPDATE raises nothing when no row matches. -/
def Machine_update_status (s : ServerState) (mid : Nat) (status : String) (now : Int) :
    ServerState :=
  { s with
    machines := s.machines.map fun m =>
      if m.id = mid then { m with status := status, last_seen := now } else m }

/-- `Peripheral.get_by_id`. -/
def Peripheral_get_by_id (s : ServerState) (pid : Nat) : Option PeripheralR :=
  s.peripherals.find? fun p => decide (p.id = pid)

/-- The `ON CONFLICT(machine_id, name)` key test of the peripherals
upsert. -/
def pmatch (mid : Nat) (name : String) (p : PeripheralR) : Bool :=
  decide (p.machine_id = mid) && decide (p.name = name)

/-- The `DO UPDATE SET type, location, last_updated` action of the
peripherals upsert, applied to the rows matching the key. -/
def pupd (mid : Nat) (name : String) (type : Option String) (location : Option String)
    (now : Int) (p : PeripheralR) : PeripheralR :=
  if p.machine_id = mid ∧ p.name = name then
    { p with type := type, location := location, last_updated := now }
  else p

/-- `Peripheral.register(machine_id, name, type, location)`: the
`INSERT ... ON CONFLICT(machine_id, name) DO UPDATE` upsert, at instant
`now`.  A conflicting row keeps its `id`; a fresh row takes the next
`AUTOINCREMENT` id (updates do not advance the counter). -/
def Peripheral_register (s : ServerState) (mid : Nat) (name : String)
    (type : Option String) (location : Option String) (now : Int) : ServerState :=
  if s.peripherals.any (pmatch mid name) then
    { s with peripherals := s.peripherals.map (pupd mid name type location now) }
  else
    { s with
      peripherals := s.peripherals ++
        [⟨s.next_peripheral_id, mid, name, type, location, now⟩],
      next_peripheral_id := s.next_peripheral_id + 1 }

/-- A joined route row as returned by `Route.get_by_id` /
`Route.get_by_machine`: the route's own columns plus the resolved
source/destination names and machine ids and the `route_items` names. -/
structure RouteView where
  id : Nat
  user_id : Nat
  name : String
  source_peripheral_id : Nat
  dest_peripheral_id : Nat
  item_filter : Option String
  enabled : Bool
  created_at : Int
  source_name : String
  source_machine_id : Nat
  dest_name : String
  dest_machine_id : Nat
  item_names : List String
deriving DecidableEq, Repr

/-- The `JOIN peripherals sp ... JOIN peripherals dp ...` of the route
queries: `some` exactly when both endpoint peripherals exist. -/
def resolveView (s : ServerState) (r : RouteR) : Option RouteView :=
  match Peripheral_get_by_id s r.source_peripheral_id,
      Peripheral_get_by_id s r.dest_peripheral_id with
  | some sp, some dp =>
    some
      { id := r.id, user_id := r.user_id, name := r.name,
        source_peripheral_id := r.source_peripheral_id,
        dest_peripheral_id := r.dest_peripheral_id,
        item_filter := r.item_filter, enabled := r.enabled,
        created_at := r.created_at,
        source_name := sp.name, source_machine_id := sp.machine_id,
        dest_name := dp.name, dest_machine_id := dp.machine_id,
        item_names := (s.route_items.filter fun it => decide (it.1 = r.id)).map (·.2) }
  | _, _ => none

/-- `Route.get_by_id`: join succeeds or the row is dropped (`None`). -/
def Route_get_by_id (s : ServerState) (rid : Nat) : Option RouteView :=
  match s.routes.find? fun r => decide (r.id = rid) with
  | some r => resolveView s r
  | none => none

/-- Stable insertion, descending by `created_at`, for `ORDER BY
created_at DESC`. -/
def insCreated (x : RouteView) : List RouteView → List RouteView
  | [] => [x]
  | y :: ys => if x.created_at < y.created_at then y :: insCreated x ys else x :: y :: ys

/-- Stable sort, descending by `created_at`. -/
def sortCreated : List RouteView → List RouteView
  | [] => []
  | x :: xs => insCreated x (sortCreated xs)

/-- `Route.get_by_machine(machine_id)`: every enabled route whose
source or destination peripheral sits on the machine, joined, ordered
by `created_at DESC`. -/
def Route_get_by_machine (s : ServerState) (mid : Nat) : List RouteView :=
  sortCreated
    (s.routes.filterMap fun r =>
      match resolveView s r with
      | some v =>
        if r.enabled ∧ (v.source_machine_id = mid ∨ v.dest_machine_id = mid) then some v
        else none
      | none => none)

/-- `Route.create`: insert the route (enabled) and its `route_items`,
returning the fresh id. -/
def Route_create (s : ServerState) (uid : Nat) (name : String) (spid dpid : Nat)
    (item_filter : Option String) (item_names : List String) (now : Int) :
    Nat × ServerState :=
  (s.next_route_id,
    { s with
      routes := s.routes ++ [⟨s.next_route_id, uid, name, spid, dpid, item_filter, true, now⟩],
      route_items := s.route_items ++ item_names.map fun n => (s.next_route_id, n),
      next_route_id := s.next_route_id + 1 })

/-- The optional fields of a route-update request body. -/
structure UpdateData where
  name : Option String := none
  source_peripheral_id : Option Nat := none
  dest_peripheral_id : Option Nat := none
  item_filter : Option String := none
  enabled : Option Bool := none
  item_names : Option (List String) := none
deriving DecidableEq, Repr

/-- `Route.update`: partial field update (only supplied fields change);
a supplied `item_names` deletes and reinserts the route's items. -/
def Route_update (s : ServerState) (rid : Nat) (d : UpdateData) : ServerState :=
  let s1 :=
    { s with
      routes := s.routes.map fun r =>
        if r.id = rid then
          { r with
            name := d.name.getD r.name,
            source_peripheral_id := d.source_peripheral_id.getD r.source_peripheral_id,
            dest_peripheral_id := d.dest_peripheral_id.getD r.dest_peripheral_id,
            item_filter :=
              match d.item_filter with
              | some f => some f
              | none => r.item_filter,
            enabled := d.enabled.getD r.enabled }
        else r }
  match d.item_names with
  | some ns =>
    { s1 with
      route_items :=
        (s1.route_items.filter fun it => decide (it.1 ≠ rid)) ++ ns.map fun n => (rid, n) }
  | none => s1

/-- `Route.delete`: deletes the route row.  The `route_items` cascade is
declared in the schema but SQLite only enforces foreign keys when
`PRAGMA foreign_keys=ON` is issued, which this code base never does, so
the item rows stay behind. -/
def Route_delete (s : ServerState) (rid : Nat) : ServerState :=
  { s with routes := s.routes.filter fun r => decide (r.id ≠ rid) }

end Models

namespace Models

/-!
## API handlers (`backend/routes.py`) and the liveness sweep
(`backend/peripheral_discovery.py`)
-/

/-- One generated transport command of `cc_get_commands`. -/
structure Command where
  route_id : Nat
  action : String
  source : String
  dest : String
  source_machine_id : Nat
  dest_machine_id : Nat
  item_filter : Option String
  item_names : List String
deriving DecidableEq, Repr

/-- Handler outcomes, tagged with the HTTP meaning of each branch. -/
inductive ApiResult
  /-- 200/201 carrying a (possibly null) joined route row. -/
  | okRoute (v : Option RouteView)
  /-- 200 carrying the generated command list. -/
  | okCommands (cs : List Command)
  /-- 200 `{'success': True, 'registered': n}` of the peripheral report. -/
  | okRegistered (n : Nat)
  /-- 200 `{'success': True}`. -/
  | okSimple
  /-- 400. -/
  | badRequest (msg : String)
  /-- 403. -/
  | forbidden (msg : String)
  /-- 404. -/
  | notFound (msg : String)
  /-- 500: an uncaught Python exception. -/
  | serverError
deriving DecidableEq, Repr

/-- Python truthiness test of an optional JSON string (`not name`). -/
def falsyS : Option String → Bool
  | none => true
  | some s => s = ""

/-- Python truthiness test of an optional JSON integer (`not x`): absent
or zero. -/
def falsyN : Option Nat → Bool
  | none => true
  | some n => n = 0

/-- The body of a route-creation request. -/
structure CreateData where
  name : Option String := none
  source_peripheral_id : Option Nat := none
  dest_peripheral_id : Option Nat := none
  item_filter : Option String := none
  item_names : List String := []
deriving DecidableEq, Repr

/-- `create_route` (`POST /api/routes`, session user `uid`). -/
def create_route (s : ServerState) (uid : Nat) (d : CreateData) (now : Int) :
    ApiResult × ServerState :=
  if falsyS d.name || falsyN d.source_peripheral_id || falsyN d.dest_peripheral_id then
    (.badRequest "Name, source, and destination required", s)
  else
    let spid := d.source_peripheral_id.getD 0
    let dpid := d.dest_peripheral_id.getD 0
    match Peripheral_get_by_id s spid, Peripheral_get_by_id s dpid with
    | some sp, some dp =>
      (match Machine_get_by_id s sp.machine_id, Machine_get_by_id s dp.machine_id with
      | some sm, some dm =>
        if sm.user_id ≠ uid ∨ dm.user_id ≠ uid then
          (.forbidden "Peripherals must belong to your machines", s)
        else
          let (rid, s') :=
            Route_create s uid (d.name.getD "") spid dpid d.item_filter d.item_names now
          (.okRoute (Route_get_by_id s' rid), s')
      | _, _ => (.badRequest "Invalid machine", s))
    | _, _ => (.badRequest "Invalid peripheral", s)

/-- `update_route` (`PUT /api/routes/<id>`): looks the route up, then
checks ownership of the *source* peripheral's machine only, then
applies the partial update.  A route whose source machine row is gone
makes the Python subscript `source_machine['user_id']` raise
(`TypeError` on `None`), i.e. a 500. -/
def update_route (s : ServerState) (uid : Nat) (rid : Nat) (d : UpdateData) :
    ApiResult × ServerState :=
  match Route_get_by_id s rid with
  | none => (.notFound "Route not found", s)
  | some rv =>
    match Peripheral_get_by_id s rv.source_peripheral_id with
    | none => (.badRequest "Invalid route", s)
    | some sp =>
      match Machine_get_by_id s sp.machine_id with
      | none => (.serverError, s)
      | some sm =>
        if sm.user_id ≠ uid then (.forbidden "Unauthorized", s)
        else
          let s' := Route_update s rid d
          (.okRoute (Route_get_by_id s' rid), s')

/-- `delete_route` (`DELETE /api/routes/<id>`): the same lookup and
source-side ownership check as `update_route`, then the delete. -/
def delete_route (s : ServerState) (uid : Nat) (rid : Nat) : ApiResult × ServerState :=
  match Route_get_by_id s rid with
  | none => (.notFound "Route not found", s)
  | some rv =>
    match Peripheral_get_by_id s rv.source_peripheral_id with
    | none => (.badRequest "Invalid route", s)
    | some sp =>
      match Machine_get_by_id s sp.machine_id with
      | none => (.serverError, s)
      | some sm =>
        if sm.user_id ≠ uid then (.forbidden "Unauthorized", s)
        else (.okSimple, Route_delete s rid)

/-- One reported peripheral of a `POST /api/peripherals` payload. -/
structure PeriphPayload where
  name : String
  type : Option String := none
  location : Option String := none
deriving DecidableEq, Repr

/-- `cc_register_peripherals` (`POST /api/peripherals`, API-key user
`uid`): after the machine-ownership check, upsert every reported
peripheral in payload order. -/
def cc_register_peripherals (s : ServerState) (uid : Nat) (mid? : Option Nat)
    (pl : List PeriphPayload) (now : Int) : ApiResult × ServerState :=
  if falsyN mid? then (.badRequest "machine_id required", s)
  else
    let mid := mid?.getD 0
    match Machine_get_by_id s mid with
    | some m =>
      if m.user_id ≠ uid then (.forbidden "Invalid machine", s)
      else
        (.okRegistered pl.length,
          pl.foldl (fun st p => Peripheral_register st mid p.name p.type p.location now) s)
    | none => (.forbidden "Invalid machine", s)

/-- Turn a joined route row into the command dict built by
`cc_get_commands`. -/
def mkCommand (v : RouteView) : Command :=
  { route_id := v.id, action := "transfer", source := v.source_name,
    dest := v.dest_name, source_machine_id := v.source_machine_id,
    dest_machine_id := v.dest_machine_id, item_filter := v.item_filter,
    item_names := v.item_names }

/-- `cc_get_commands` (`GET /api/commands`, API-key user `uid`): after
the ownership check, mark the machine online, then emit one command per
enabled route touching it, in `Route.get_by_machine` order. -/
def cc_get_commands (s : ServerState) (uid : Nat) (mid? : Option Nat) (now : Int) :
    ApiResult × ServerState :=
  if falsyN mid? then (.badRequest "machine_id required", s)
  else
    let mid := mid?.getD 0
    match Machine_get_by_id s mid with
    | some m =>
      if m.user_id ≠ uid then (.forbidden "Invalid machine", s)
      else
        let s' := Machine_update_status s mid "online" now
        (.okCommands ((Route_get_by_machine s' mid).map mkCommand), s')
    | none => (.forbidden "Invalid machine", s)

/-- `cc_update_status` (`POST /api/status`, API-key user `uid`): the
status value defaults to `'online'` and is stored verbatim. -/
def cc_update_status (s : ServerState) (uid : Nat) (mid? : Option Nat)
    (status? : Option String) (now : Int) : ApiResult × ServerState :=
  if falsyN mid? then (.badRequest "machine_id required", s)
  else
    let mid := mid?.getD 0
    let status := status?.getD "online"
    match Machine_get_by_id s mid with
    | some m =>
      if m.user_id ≠ uid then (.forbidden "Invalid machine", s)
      else (.okSimple, Machine_update_status s mid status now)
    | none => (.forbidden "Invalid machine", s)

/-- `PeripheralDiscovery._discover_peripherals`, run at instant `now`
(the code reads the clock twice a few microseconds apart; a sweep is
modelled at one instant): select the machines with `status = 'online'
AND last_seen > now - MACHINE_TIMEOUT`, then demote those of them whose
`last_seen` is more than `MACHINE_TIMEOUT` before `now`. -/
def discover_peripherals (s : ServerState) (now : Int) : ServerState :=
  (s.machines.filter fun m =>
      m.status = "online" && decide (now - MACHINE_TIMEOUT < m.last_seen)).foldl
    (fun st m =>
      if MACHINE_TIMEOUT < now - m.last_seen then
        Machine_update_status st m.id "offline" now
      else st)
    s

/-- The id `AUTOINCREMENT` hands the next `machines` insert.  Machine
rows are never deleted anywhere in the code (disconnect only updates
the row), so the next id is one past the largest id present. -/
def next_machine_id (s : ServerState) : Nat :=
  (s.machines.foldl (fun acc m => max acc m.id) 0) + 1

/-- `Machine.register(user_id, api_key_id, name)`: when a row keyed by
`(user_id, api_key_id)` exists, update it to name `name`, status
`'online'` and last-seen `now`; otherwise insert a fresh row with those
values and status `'online'`.  Either way the row is then re-selected
by its id, as the source does before returning it. -/
def Machine_register (s : ServerState) (uid akid : Nat) (name : String) (now : Int) :
    Option MachineR × ServerState :=
  match s.machines.find? fun m =>
      decide (m.user_id = uid) && decide (m.api_key_id = some akid) with
  | some existing =>
    let s' := { s with machines := s.machines.map fun m =>
        if m.id = existing.id then
          { m with last_seen := now, status := "online", name := name }
        else m }
    (s'.machines.find? fun m => decide (m.id = existing.id), s')
  | none =>
    let newId := next_machine_id s
    let s' := { s with machines := s.machines ++
        [⟨newId, uid, some akid, name, now, "online"⟩] }
    (s'.machines.find? fun m => decide (m.id = newId), s')

/-- `cc_auth` (`POST /api/auth`, API-key user `uid`, key `akid`):
register the machine under the payload name, defaulting to
`'Unknown Machine'`.  The HTTP wrapping (200 carrying the machine row,
500 on a `None` row) is carried by the returned option. -/
def cc_auth (s : ServerState) (uid akid : Nat) (name? : Option String) (now : Int) :
    Option MachineR × ServerState :=
  Machine_register s uid akid (name?.getD "Unknown Machine") now

/-- `delete_machine` (`DELETE /api/machines/<id>`, session user `uid`):
404 when no machine has the id, 403 when it belongs to another user,
otherwise set its status to `'offline'`, clear the API-key link and
refresh last-seen. -/
def delete_machine (s : ServerState) (uid mid : Nat) (now : Int) :
    ApiResult × ServerState :=
  match Machine_get_by_id s mid with
  | none => (.notFound "Machine not found", s)
  | some m =>
    if m.user_id ≠ uid then (.forbidden "Unauthorized", s)
    else
      (.okSimple, { s with machines := s.machines.map fun mm =>
        if mm.id = mid then
          { mm with status := "offline", api_key_id := none, last_seen := now }
        else mm })

end Models

namespace Models

/-! ## Supporting lemmas for the liveness and status claims -/

/-- A fold whose step fixes the accumulator on every list element is the
identity. -/
theorem foldl_fixed {α β : Type} (f : β → α → β) (l : List α) (b : β)
    (h : ∀ a ∈ l, f b a = b) : l.foldl f b = b := by
  induction l with
  | nil => rfl
  | cons x xs ih =>
    have hx : f b x = b := h x (List.mem_cons_self x xs)
    simp only [List.foldl_cons, hx]
    exact ih fun a ha => h a (List.mem_cons_of_mem x ha)

/-- The sweep's demotion guard contradicts its own SQL selection: a
selected machine satisfies `now - MACHINE_TIMEOUT < last_seen`, so
`MACHINE_TIMEOUT < now - last_seen` never holds. -/
theorem discover_peripherals_eq_self (s : ServerState) (now : Int) :
    discover_peripherals s now = s := by
  unfold discover_peripherals
  apply foldl_fixed
  intro m hm
  simp only [List.mem_filter, Bool.and_eq_true, decide_eq_true_eq] at hm
  obtain ⟨-, -, hsel⟩ := hm
  rw [if_neg]
  simp only [MACHINE_TIMEOUT] at hsel ⊢
  omega

end Models

namespace Models

/-! ## C1, C6, C7: liveness tracking -/

/-- C1: the claim says a sweep demotes every online machine whose
last-seen is older than `now - timeout`; the code's SQL selects only
machines with `last_seen > now - timeout`, so the demotion guard inside
the loop is unsatisfiable and a sweep never changes anything.  Shown in
general and at the claim's own scenario: a machine marked online and
last seen at time 0 stays `online` through a sweep at time 100 with the
configured 60-second timeout. -/
theorem c1_sweep_never_demotes :
    (∀ s now, discover_peripherals s now = s) ∧
      discover_peripherals
          ⟨[⟨1, 1, none, "m", 0, "online"⟩], [], [], [], 0, 0⟩ 100 =
        ⟨[⟨1, 1, none, "m", 0, "online"⟩], [], [], [], 0, 0⟩ :=
  ⟨discover_peripherals_eq_self, discover_peripherals_eq_self _ 100⟩

/-- C6 counterexample: `Machine.update_status` on an id with no machine
row is an `UPDATE` matching zero rows: it returns normally and changes
nothing, instead of failing with `NotFound` as claimed. -/
theorem c6_missing_machine_is_silent_noop :
    Machine_update_status ⟨[⟨1, 1, none, "m", 0, "online"⟩], [], [], [], 0, 0⟩
        5 "online" 100 =
      ⟨[⟨1, 1, none, "m", 0, "online"⟩], [], [], [], 0, 0⟩ := by
  decide

/-- C6 as amended: `markOnline` sets the machine's status to online and
its last-seen to now and always succeeds when the machine exists; when
no machine has the id, it succeeds as a no-op (the update matches zero
rows) rather than failing with `NotFound`. -/
theorem c6_mark_online_updates_or_noop (s : ServerState) (mid : Nat) (now : Int) :
    ((∃ m ∈ s.machines, m.id = mid) →
      ∃ m' ∈ (Machine_update_status s mid "online" now).machines,
        m'.id = mid ∧ m'.status = "online" ∧ m'.last_seen = now) ∧
    ((∀ m ∈ s.machines, m.id ≠ mid) → Machine_update_status s mid "online" now = s) := by
  constructor
  · rintro ⟨m, hm, rfl⟩
    refine ⟨{ m with status := "online", last_seen := now }, ?_, rfl, rfl, rfl⟩
    have h :=
      List.mem_map_of_mem
        (fun m' =>
          if m'.id = m.id then { m' with status := "online", last_seen := now } else m')
        hm
    simpa [Machine_update_status] using h
  · intro h
    show { s with machines := _ } = s
    have hmap :
        ∀ l : List MachineR, (∀ m ∈ l, m.id ≠ mid) →
          (l.map fun m =>
              if m.id = mid then { m with status := "online", last_seen := now } else m) =
            l := by
      intro l hl
      induction l with
      | nil => rfl
      | cons x xs ih =>
        have hx : x.id ≠ mid := hl x (List.mem_cons_self x xs)
        simp only [List.map_cons, if_neg hx]
        rw [ih fun m hm => hl m (List.mem_cons_of_mem x hm)]
    rw [hmap s.machines h]

/-- C6 witness: the amended theorem applied to a one-machine state. -/
theorem c6_mark_online_witness :
    ∃ m' ∈ (Machine_update_status ⟨[⟨3, 1, none, "m", 0, "offline"⟩], [], [], [], 0, 0⟩
        3 "online" 100).machines,
      m'.id = 3 ∧ m'.status = "online" ∧ m'.last_seen = 100 :=
  (c6_mark_online_updates_or_noop ⟨[⟨3, 1, none, "m", 0, "offline"⟩], [], [], [], 0, 0⟩
      3 100).1
    ⟨⟨3, 1, none, "m", 0, "offline"⟩, by decide, rfl⟩

/-- C7 counterexample: the status-report endpoint stores the
client-supplied status string verbatim, so a machine's stored status
can leave `{online, offline}`: reporting `'banana'` succeeds and the
row now carries status `'banana'`. -/
theorem c7_status_report_stores_arbitrary_value :
    (cc_update_status ⟨[⟨1, 7, none, "m", 0, "online"⟩], [], [], [], 0, 0⟩
        7 (some 1) (some "banana") 5) =
      (.okSimple, ⟨[⟨1, 7, none, "m", 5, "banana"⟩], [], [], [], 0, 0⟩) ∧
    "banana" ≠ "online" ∧ "banana" ≠ "offline" := by
  decide

/-- C7 as amended: for an existing machine owned by the requester the
status-report operation succeeds and stores the supplied status string
verbatim (defaulting to `'online'` when absent), so the stored status
is not confined to `{online, offline}`. -/
theorem c7_status_stored_verbatim (s : ServerState) (uid mid : Nat) (st : String)
    (now : Int) (m : MachineR) (hmid : mid ≠ 0)
    (hfind : Machine_get_by_id s mid = some m) (hown : m.user_id = uid) :
    cc_update_status s uid (some mid) (some st) now =
      (.okSimple, Machine_update_status s mid st now) ∧
    cc_update_status s uid (some mid) none now =
      (.okSimple, Machine_update_status s mid "online" now) ∧
    ∀ m' ∈ (Machine_update_status s mid st now).machines, m'.id = mid → m'.status = st := by
  refine ⟨?_, ?_, ?_⟩
  · simp [cc_update_status, falsyN, hmid, hfind, hown]
  · simp [cc_update_status, falsyN, hmid, hfind, hown]
  · intro m' hm' hid
    simp only [Machine_update_status, List.mem_map] at hm'
    obtain ⟨m0, -, rfl⟩ := hm'
    by_cases h0 : m0.id = mid
    · simp [h0]
    · simp only [if_neg h0] at hid ⊢
      exact absurd hid h0

/-- C7 witness: the amended theorem applied to a one-machine state and
the status string `'banana'`. -/
theorem c7_status_stored_verbatim_witness :
    cc_update_status ⟨[⟨1, 7, none, "m", 0, "online"⟩], [], [], [], 0, 0⟩
        7 (some 1) (some "banana") 5 =
      (.okSimple,
        Machine_update_status ⟨[⟨1, 7, none, "m", 0, "online"⟩], [], [], [], 0, 0⟩
          1 "banana" 5) :=
  (c7_status_stored_verbatim ⟨[⟨1, 7, none, "m", 0, "online"⟩], [], [], [], 0, 0⟩
      7 1 "banana" 5 ⟨1, 7, none, "m", 0, "online"⟩ (by decide) (by decide) rfl).1

end Models

namespace ItemFilter

/-! ## C10: empty token -/

/-- C10: `filter_items_by_name` with an empty token returns the whole
catalog unchanged, in its original order, before any classification or
scoring happens. -/
theorem c10_empty_token_returns_catalog (items : List Str) :
    filter_items_by_name [] items = items := by
  simp [filter_items_by_name]

end ItemFilter

namespace Models

/-! ## C5: the commands poll -/

/-- Stable insertion keeps the same elements. -/
theorem insCreated_perm (x : RouteView) (l : List RouteView) :
    List.Perm (insCreated x l) (x :: l) := by
  induction l with
  | nil => exact List.Perm.refl _
  | cons y ys ih =>
    unfold insCreated
    by_cases h : x.created_at < y.created_at
    · rw [if_pos h]
      exact List.Perm.trans (List.Perm.cons y ih) (List.Perm.swap x y ys)
    · rw [if_neg h]

/-- The `ORDER BY created_at DESC` sort is a permutation. -/
theorem sortCreated_perm (l : List RouteView) : List.Perm (sortCreated l) l := by
  induction l with
  | nil => exact List.Perm.refl _
  | cons x xs ih =>
    exact List.Perm.trans (insCreated_perm x (sortCreated xs)) (List.Perm.cons x ih)

/-- Membership in `Route.get_by_machine`: exactly the enabled routes
whose join succeeds and whose source or destination peripheral sits on
the machine. -/
theorem mem_get_by_machine (s : ServerState) (mid : Nat) (v : RouteView) :
    v ∈ Route_get_by_machine s mid ↔
      ∃ r ∈ s.routes, r.enabled ∧ resolveView s r = some v ∧
        (v.source_machine_id = mid ∨ v.dest_machine_id = mid) := by
  unfold Route_get_by_machine
  rw [(sortCreated_perm _).mem_iff, List.mem_filterMap]
  constructor
  · rintro ⟨r, hr, hf⟩
    refine ⟨r, hr, ?_⟩
    split at hf
    next v' hres =>
      split at hf
      next hc =>
        cases hf
        exact ⟨hc.1, hres, hc.2⟩
      next => cases hf
    next => cases hf
  · rintro ⟨r, hr, hen, hres, htouch⟩
    refine ⟨r, hr, ?_⟩
    simp only [hres]
    rw [if_pos ⟨hen, htouch⟩]

/-- C5: for an owned machine the commands poll marks the machine online
first and answers with exactly one `transfer` command per joined
enabled route touching the machine, in `Route.get_by_machine` order,
fields copied verbatim by `mkCommand`; the route list is computed
identically before or after any status change of the machine (so no
enabled route is dropped because of the machine's recorded status), and
membership in it is exactly enabledness plus adjacency. -/
theorem c5_commands_poll (s : ServerState) (uid mid : Nat) (now : Int) (m : MachineR)
    (hmid : mid ≠ 0) (hfind : Machine_get_by_id s mid = some m)
    (hown : m.user_id = uid) :
    cc_get_commands s uid (some mid) now =
      (.okCommands ((Route_get_by_machine s mid).map mkCommand),
        Machine_update_status s mid "online" now) ∧
    (∀ st now', Route_get_by_machine (Machine_update_status s mid st now') mid =
      Route_get_by_machine s mid) ∧
    (∀ v, v ∈ Route_get_by_machine s mid ↔
      ∃ r ∈ s.routes, r.enabled ∧ resolveView s r = some v ∧
        (v.source_machine_id = mid ∨ v.dest_machine_id = mid)) := by
  have hindep : ∀ (st : String) (now' : Int),
      Route_get_by_machine (Machine_update_status s mid st now') mid =
        Route_get_by_machine s mid := fun st now' => rfl
  refine ⟨?_, hindep, fun v => mem_get_by_machine s mid v⟩
  simp [cc_get_commands, falsyN, hmid, hfind, hown, hindep]

end Models

namespace Models

/-- C5 witness: the poll theorem applied to a one-machine, one-route
state. -/
theorem c5_commands_poll_witness :
    cc_get_commands
        ⟨[⟨1, 1, none, "m", 0, "offline"⟩],
          [⟨1, 1, "chest_a", none, none, 0⟩, ⟨2, 1, "chest_b", none, none, 0⟩],
          [⟨1, 1, "r", 1, 2, some "iron", true, 0⟩], [(1, "iron_ingot")], 3, 2⟩
        1 (some 1) 50 =
      (.okCommands
          ((Route_get_by_machine
              ⟨[⟨1, 1, none, "m", 0, "offline"⟩],
                [⟨1, 1, "chest_a", none, none, 0⟩, ⟨2, 1, "chest_b", none, none, 0⟩],
                [⟨1, 1, "r", 1, 2, some "iron", true, 0⟩], [(1, "iron_ingot")], 3, 2⟩
              1).map mkCommand),
        Machine_update_status
          ⟨[⟨1, 1, none, "m", 0, "offline"⟩],
            [⟨1, 1, "chest_a", none, none, 0⟩, ⟨2, 1, "chest_b", none, none, 0⟩],
            [⟨1, 1, "r", 1, 2, some "iron", true, 0⟩], [(1, "iron_ingot")], 3, 2⟩
          1 "online" 50) :=
  (c5_commands_poll
      ⟨[⟨1, 1, none, "m", 0, "offline"⟩],
        [⟨1, 1, "chest_a", none, none, 0⟩, ⟨2, 1, "chest_b", none, none, 0⟩],
        [⟨1, 1, "r", 1, 2, some "iron", true, 0⟩], [(1, "iron_ingot")], 3, 2⟩
      1 1 50 ⟨1, 1, none, "m", 0, "offline"⟩ (by decide) (by decide) rfl).1

/-! ## C9: peripheral registration is an upsert -/

/-- The upsert's update action never changes the key columns, so the
key test is invariant under it (also across different keys). -/
theorem pmatch_pupd (mid nm : Nat) (name nm' : String) (t l : Option String) (n : Int)
    (p : PeripheralR) :
    pmatch mid name (pupd nm nm' t l n p) = pmatch mid name p := by
  unfold pmatch pupd
  by_cases h : p.machine_id = nm ∧ p.name = nm'
  · simp [h]
  · simp [h]

/-- Updating the same key twice keeps only the second update. -/
theorem pupd_pupd (mid : Nat) (nm : String) (t1 l1 : Option String) (n1 : Int)
    (t2 l2 : Option String) (n2 : Int) (p : PeripheralR) :
    pupd mid nm t2 l2 n2 (pupd mid nm t1 l1 n1 p) = pupd mid nm t2 l2 n2 p := by
  unfold pupd
  by_cases h : p.machine_id = mid ∧ p.name = nm
  · simp [h]
  · simp [h]

/-- Updates at distinct keys commute (a row matches at most one key). -/
theorem pupd_comm (mid mid' : Nat) (nm nm' : String) (t l : Option String) (n : Int)
    (t' l' : Option String) (n' : Int) (p : PeripheralR)
    (hk : ¬(mid' = mid ∧ nm' = nm)) :
    pupd mid nm t l n (pupd mid' nm' t' l' n' p) =
      pupd mid' nm' t' l' n' (pupd mid nm t l n p) := by
  have hk' : ¬(mid = mid' ∧ nm = nm') := fun hc => hk ⟨hc.1.symm, hc.2.symm⟩
  unfold pupd
  by_cases h1 : p.machine_id = mid ∧ p.name = nm
  · have h2 : ¬(p.machine_id = mid' ∧ p.name = nm') := by
      rintro ⟨ha, hb⟩
      exact hk ⟨ha.symm.trans h1.1, hb.symm.trans h1.2⟩
    simp [h1, h2, hk, hk']
  · by_cases h2 : p.machine_id = mid' ∧ p.name = nm'
    · simp [h1, h2, hk, hk']
    · simp [h1, h2]

/-- After a register at a key, the key is present. -/
theorem register_key_present (s : ServerState) (mid : Nat) (nm : String)
    (t l : Option String) (n : Int) :
    (Peripheral_register s mid nm t l n).peripherals.any (pmatch mid nm) = true := by
  unfold Peripheral_register
  by_cases hex : s.peripherals.any (pmatch mid nm) = true
  · rw [if_pos hex]
    show (s.peripherals.map _).any _ = true
    rw [List.any_map]
    have : (pmatch mid nm ∘ pupd mid nm t l n) = pmatch mid nm :=
      funext fun p => pmatch_pupd mid mid nm nm t l n p
    rw [this]
    exact hex
  · rw [if_neg hex]
    show (s.peripherals ++ _).any _ = true
    rw [List.any_append]
    simp [pmatch]

/-- A register at any key preserves the presence of every present key. -/
theorem register_preserves_present (s : ServerState) (mid mid' : Nat) (nm nm' : String)
    (t l : Option String) (n : Int)
    (h : s.peripherals.any (pmatch mid nm) = true) :
    (Peripheral_register s mid' nm' t l n).peripherals.any (pmatch mid nm) = true := by
  unfold Peripheral_register
  by_cases hex : s.peripherals.any (pmatch mid' nm') = true
  · rw [if_pos hex]
    show (s.peripherals.map _).any _ = true
    rw [List.any_map]
    have : (pmatch mid nm ∘ pupd mid' nm' t l n) = pmatch mid nm :=
      funext fun p => pmatch_pupd mid mid' nm nm' t l n p
    rw [this]
    exact h
  · rw [if_neg hex]
    show (s.peripherals ++ _).any _ = true
    rw [List.any_append, h]
    rfl

/-- Registering the same `(machine id, name)` twice is the same as
registering once with the second call's payload: re-registration
overwrites `type`, `location` and `last_updated`, never identity. -/
theorem register_register (s : ServerState) (mid : Nat) (nm : String)
    (t1 l1 : Option String) (n1 : Int) (t2 l2 : Option String) (n2 : Int) :
    Peripheral_register (Peripheral_register s mid nm t1 l1 n1) mid nm t2 l2 n2 =
      Peripheral_register s mid nm t2 l2 n2 := by
  by_cases hex : s.peripherals.any (pmatch mid nm) = true
  · have h1 : Peripheral_register s mid nm t1 l1 n1 =
        { s with peripherals := s.peripherals.map (pupd mid nm t1 l1 n1) } := by
      unfold Peripheral_register; rw [if_pos hex]
    have hany2 : (s.peripherals.map (pupd mid nm t1 l1 n1)).any (pmatch mid nm) = true := by
      rw [List.any_map]
      have : (pmatch mid nm ∘ pupd mid nm t1 l1 n1) = pmatch mid nm :=
        funext fun p => pmatch_pupd mid mid nm nm t1 l1 n1 p
      rw [this]; exact hex
    rw [h1]
    unfold Peripheral_register
    rw [if_pos hany2, if_pos hex]
    show ({ s with peripherals := _ } : ServerState) = { s with peripherals := _ }
    congr 1
    rw [List.map_map]
    exact List.map_congr_left fun p _ => pupd_pupd mid nm t1 l1 n1 t2 l2 n2 p
  · have h1 : Peripheral_register s mid nm t1 l1 n1 =
        { s with
          peripherals := s.peripherals ++ [⟨s.next_peripheral_id, mid, nm, t1, l1, n1⟩],
          next_peripheral_id := s.next_peripheral_id + 1 } := by
      unfold Peripheral_register; rw [if_neg hex]
    have hany2 :
        ((s.peripherals ++
              [(⟨s.next_peripheral_id, mid, nm, t1, l1, n1⟩ : PeripheralR)]).any
            (pmatch mid nm)) = true := by
      rw [List.any_append]; simp [pmatch]
    rw [h1]
    unfold Peripheral_register
    rw [if_pos hany2, if_neg hex]
    show ({ s with peripherals := _, next_peripheral_id := _ } : ServerState) =
      { s with peripherals := _, next_peripheral_id := _ }
    congr 1
    rw [List.map_append]
    have hnone : ∀ p ∈ s.peripherals, ¬(p.machine_id = mid ∧ p.name = nm) := by
      intro p hp hc
      exact hex (List.any_eq_true.mpr ⟨p, hp, by simp [pmatch, hc.1, hc.2]⟩)
    have hleft : s.peripherals.map (pupd mid nm t2 l2 n2) = s.peripherals := by
      conv_rhs => rw [← List.map_id s.peripherals]
      exact List.map_congr_left fun p hp => by simp [pupd, hnone p hp]
    rw [hleft]
    simp [pupd]

end Models

namespace Models

/-- Registers at distinct keys commute, provided the first key is
already present (so no id is allocated for it). -/
theorem register_comm (s : ServerState) (mid mid' : Nat) (nm nm' : String)
    (t l : Option String) (n : Int) (t' l' : Option String) (n' : Int)
    (hpres : s.peripherals.any (pmatch mid nm) = true)
    (hk : ¬(mid' = mid ∧ nm' = nm)) :
    Peripheral_register (Peripheral_register s mid' nm' t' l' n') mid nm t l n =
      Peripheral_register (Peripheral_register s mid nm t l n) mid' nm' t' l' n' := by
  have hupd : Peripheral_register s mid nm t l n =
      { s with peripherals := s.peripherals.map (pupd mid nm t l n) } := by
    unfold Peripheral_register; rw [if_pos hpres]
  have hcomp : (pmatch mid' nm' ∘ pupd mid nm t l n) = pmatch mid' nm' :=
    funext fun p => pmatch_pupd mid' mid nm' nm t l n p
  have hcomp2 : (pmatch mid nm ∘ pupd mid' nm' t' l' n') = pmatch mid nm :=
    funext fun p => pmatch_pupd mid mid' nm nm' t' l' n' p
  by_cases hex' : s.peripherals.any (pmatch mid' nm') = true
  · have hinner : Peripheral_register s mid' nm' t' l' n' =
        { s with peripherals := s.peripherals.map (pupd mid' nm' t' l' n') } := by
      unfold Peripheral_register; rw [if_pos hex']
    have ha : (s.peripherals.map (pupd mid' nm' t' l' n')).any (pmatch mid nm) = true := by
      rw [List.any_map, hcomp2]; exact hpres
    have hb : (s.peripherals.map (pupd mid nm t l n)).any (pmatch mid' nm') = true := by
      rw [List.any_map, hcomp]; exact hex'
    rw [hinner, hupd]
    unfold Peripheral_register
    rw [if_pos ha, if_pos hb]
    show ({ s with peripherals := _ } : ServerState) = { s with peripherals := _ }
    congr 1
    rw [List.map_map, List.map_map]
    exact List.map_congr_left fun p _ => pupd_comm mid mid' nm nm' t l n t' l' n' p hk
  · have hinner : Peripheral_register s mid' nm' t' l' n' =
        { s with
          peripherals := s.peripherals ++
            [(⟨s.next_peripheral_id, mid', nm', t', l', n'⟩ : PeripheralR)],
          next_peripheral_id := s.next_peripheral_id + 1 } := by
      unfold Peripheral_register; rw [if_neg hex']
    have ha : ((s.peripherals ++
          [(⟨s.next_peripheral_id, mid', nm', t', l', n'⟩ : PeripheralR)]).any
            (pmatch mid nm)) = true := by
      rw [List.any_append, hpres]; rfl
    have hb : (s.peripherals.map (pupd mid nm t l n)).any (pmatch mid' nm') = false := by
      rw [List.any_map, hcomp]
      exact Bool.eq_false_iff.mpr hex'
    rw [hinner, hupd]
    unfold Peripheral_register
    rw [if_pos ha, if_neg (Bool.eq_false_iff.mp hb ∘ fun h => h)]
    show ({ s with peripherals := _, next_peripheral_id := _ } : ServerState) =
      { s with peripherals := _, next_peripheral_id := _ }
    congr 1
    rw [List.map_append]
    have hnew : (pupd mid nm t l n
        (⟨s.next_peripheral_id, mid', nm', t', l', n'⟩ : PeripheralR)) =
        (⟨s.next_peripheral_id, mid', nm', t', l', n'⟩ : PeripheralR) := by
      have : ¬((mid' : Nat) = mid ∧ (nm' : String) = nm) := hk
      simp [pupd, this]
    simp [hnew]

end Models

namespace Models

/-- Registering never touches the machines table. -/
theorem register_machines_eq (s : ServerState) (mid : Nat) (nm : String)
    (t l : Option String) (n : Int) :
    (Peripheral_register s mid nm t l n).machines = s.machines := by
  unfold Peripheral_register
  split <;> rfl

/-- A whole report loop never touches the machines table. -/
theorem register_fold_machines_eq (pl : List PeriphPayload) (s : ServerState)
    (mid : Nat) (n : Int) :
    (pl.foldl (fun st p => Peripheral_register st mid p.name p.type p.location n)
        s).machines = s.machines := by
  induction pl generalizing s with
  | nil => rfl
  | cons a l ih =>
    simp only [List.foldl_cons]
    rw [ih, register_machines_eq]

/-- A register at a key already present commutes forward past a report
loop whose payload avoids that name. -/
theorem register_fold_comm (pl : List PeriphPayload) (u : ServerState) (mid : Nat)
    (nm : String) (t l : Option String) (n n1 : Int)
    (hpres : u.peripherals.any (pmatch mid nm) = true)
    (hname : ∀ p ∈ pl, p.name ≠ nm) :
    Peripheral_register
        (pl.foldl (fun st p => Peripheral_register st mid p.name p.type p.location n1) u)
        mid nm t l n =
      pl.foldl (fun st p => Peripheral_register st mid p.name p.type p.location n1)
        (Peripheral_register u mid nm t l n) := by
  induction pl generalizing u with
  | nil => rfl
  | cons b bl ih =>
    simp only [List.foldl_cons]
    rw [ih (Peripheral_register u mid b.name b.type b.location n1)
        (register_preserves_present u mid mid nm b.name b.type b.location n1 hpres)
        (fun p hp => hname p (List.mem_cons_of_mem b hp))]
    congr 1
    exact register_comm u mid mid nm b.name t l n b.type b.location n1 hpres
      fun hc => hname b (List.mem_cons_self b bl) hc.2

/-- Replaying a report loop with pairwise-distinct names over its own
result only refreshes what the replay writes anyway. -/
theorem register_fold_idem (pl : List PeriphPayload) (s : ServerState) (mid : Nat)
    (n1 n2 : Int) (hnd : (pl.map (·.name)).Nodup) :
    pl.foldl (fun st p => Peripheral_register st mid p.name p.type p.location n2)
        (pl.foldl (fun st p => Peripheral_register st mid p.name p.type p.location n1) s) =
      pl.foldl (fun st p => Peripheral_register st mid p.name p.type p.location n2) s := by
  induction pl generalizing s with
  | nil => rfl
  | cons a l ih =>
    simp only [List.map_cons, List.nodup_cons] at hnd
    obtain ⟨hna, hnd'⟩ := hnd
    simp only [List.foldl_cons]
    have hname : ∀ p ∈ l, p.name ≠ a.name := by
      intro p hp he
      exact hna (he ▸ List.mem_map_of_mem (·.name) hp)
    rw [register_fold_comm l (Peripheral_register s mid a.name a.type a.location n1)
        mid a.name a.type a.location n2 n1
        (register_key_present s mid a.name a.type a.location n1) hname]
    rw [register_register]
    exact ih (Peripheral_register s mid a.name a.type a.location n2) hnd'

end Models

namespace Models

/-- C9: registering a peripheral whose `(machine id, name)` pair exists
updates that row's type, location and last-updated but never its
identity — re-registering is the same as a single registration with the
latest payload, the id set, row count and id counter are unchanged, and
the matching row is rewritten in place; consequently a peripheral
report (with pairwise-distinct names, as a machine reports each
attachment point once) sent twice yields the same peripheral set as
sending it once, apart from the refreshed timestamps of the second
send. -/
theorem c9_register_is_upsert (s : ServerState) (mid : Nat) (nm : String)
    (t l : Option String) (n : Int) (t1 l1 : Option String) (n1 : Int) :
    (Peripheral_register (Peripheral_register s mid nm t1 l1 n1) mid nm t l n =
      Peripheral_register s mid nm t l n) ∧
    ((∃ p ∈ s.peripherals, p.machine_id = mid ∧ p.name = nm) →
      (Peripheral_register s mid nm t l n).peripherals.map (·.id) =
          s.peripherals.map (·.id) ∧
        (Peripheral_register s mid nm t l n).peripherals.length =
          s.peripherals.length ∧
        (Peripheral_register s mid nm t l n).next_peripheral_id =
          s.next_peripheral_id ∧
        ∀ p ∈ s.peripherals, p.machine_id = mid → p.name = nm →
          ({ p with type := t, location := l, last_updated := n } : PeripheralR) ∈
            (Peripheral_register s mid nm t l n).peripherals) ∧
    (∀ (pl : List PeriphPayload) (uid : Nat) (m : MachineR) (n2 : Int),
      (pl.map (·.name)).Nodup → mid ≠ 0 → Machine_get_by_id s mid = some m →
      m.user_id = uid →
      cc_register_peripherals (cc_register_peripherals s uid (some mid) pl n).2 uid
          (some mid) pl n2 =
        (.okRegistered pl.length, (cc_register_peripherals s uid (some mid) pl n2).2)) := by
  refine ⟨register_register s mid nm t1 l1 n1 t l n, ?_, ?_⟩
  · rintro ⟨p0, hp0, hm0⟩
    have hany : s.peripherals.any (pmatch mid nm) = true :=
      List.any_eq_true.mpr ⟨p0, hp0, by simp [pmatch, hm0.1, hm0.2]⟩
    have hreg : Peripheral_register s mid nm t l n =
        { s with peripherals := s.peripherals.map (pupd mid nm t l n) } := by
      unfold Peripheral_register; rw [if_pos hany]
    refine ⟨?_, ?_, ?_, ?_⟩
    · rw [hreg]
      show (s.peripherals.map _).map _ = _
      rw [List.map_map]
      exact List.map_congr_left fun p _ => by
        unfold pupd; by_cases h : p.machine_id = mid ∧ p.name = nm <;> simp [h]
    · rw [hreg]
      exact List.length_map s.peripherals _
    · rw [hreg]
    · intro p hp h1 h2
      rw [hreg]
      have := List.mem_map_of_mem (pupd mid nm t l n) hp
      rw [show pupd mid nm t l n p =
          ({ p with type := t, location := l, last_updated := n } : PeripheralR) from
        by unfold pupd; rw [if_pos ⟨h1, h2⟩]] at this
      exact this
  · intro pl uid m n2 hnd hmid hfind hown
    have hstep : ∀ (nn : Int) (u : ServerState), Machine_get_by_id u mid = some m →
        cc_register_peripherals u uid (some mid) pl nn =
          (.okRegistered pl.length,
            pl.foldl (fun st p => Peripheral_register st mid p.name p.type p.location nn) u) := by
      intro nn u hu
      simp [cc_register_peripherals, falsyN, hmid, hu, hown]
    have h1 := hstep n s hfind
    have hmach : Machine_get_by_id
        (pl.foldl (fun st p => Peripheral_register st mid p.name p.type p.location n) s)
        mid = some m := by
      unfold Machine_get_by_id
      rw [register_fold_machines_eq]
      exact hfind
    rw [h1, hstep n2 _ hmach, hstep n2 s hfind]
    rw [register_fold_idem pl s mid n n2 hnd]

/-- C9 witness: the upsert theorem applied to a state that already has
the peripheral, and to a two-name payload reported twice. -/
theorem c9_register_is_upsert_witness :
    (Peripheral_register
          ⟨[⟨1, 1, none, "m", 0, "online"⟩], [⟨1, 1, "chest", some "old", none, 0⟩],
            [], [], 2, 1⟩
          1 "chest" (some "inv") (some "top") 9).peripherals.map (·.id) =
        ([⟨1, 1, "chest", some "old", none, 0⟩] : List PeripheralR).map (·.id) ∧
      cc_register_peripherals
          (cc_register_peripherals
              ⟨[⟨1, 1, none, "m", 0, "online"⟩], [⟨1, 1, "chest", some "old", none, 0⟩],
                [], [], 2, 1⟩
              1 (some 1) [⟨"chest", some "inv", none⟩, ⟨"tank", none, none⟩] 9).2
          1 (some 1) [⟨"chest", some "inv", none⟩, ⟨"tank", none, none⟩] 11 =
        (.okRegistered 2,
          (cc_register_peripherals
              ⟨[⟨1, 1, none, "m", 0, "online"⟩], [⟨1, 1, "chest", some "old", none, 0⟩],
                [], [], 2, 1⟩
              1 (some 1) [⟨"chest", some "inv", none⟩, ⟨"tank", none, none⟩] 11).2) :=
  ⟨((c9_register_is_upsert
        ⟨[⟨1, 1, none, "m", 0, "online"⟩], [⟨1, 1, "chest", some "old", none, 0⟩],
          [], [], 2, 1⟩
        1 "chest" (some "inv") (some "top") 9 none none 0).2.1
      ⟨⟨1, 1, "chest", some "old", none, 0⟩, by decide, by decide⟩).1,
    (c9_register_is_upsert
        ⟨[⟨1, 1, none, "m", 0, "online"⟩], [⟨1, 1, "chest", some "old", none, 0⟩],
          [], [], 2, 1⟩
        1 "chest" (some "inv") (some "top") 9 none none 0).2.2
      [⟨"chest", some "inv", none⟩, ⟨"tank", none, none⟩] 1 ⟨1, 1, none, "m", 0, "online"⟩
      11 (by decide) (by decide) (by decide) rfl⟩

end Models

namespace Models

/-! ## C2: route-mutation ownership checks -/

/-- C2 counterexample: a route whose destination peripheral belongs to
another user's machine can be updated by the source-side owner: the
update succeeds and rewrites the record instead of failing with
`Forbidden`, because `update_route` only checks the source peripheral's
machine.  (Machine 2 and peripheral 2 belong to user 2; user 1 updates
route 1, whose destination is peripheral 2.) -/
theorem c2_dest_ownership_not_checked :
    Machine_get_by_id
        ⟨[⟨1, 1, none, "m1", 0, "online"⟩, ⟨2, 2, none, "m2", 0, "online"⟩],
          [⟨1, 1, "chest_a", none, none, 0⟩, ⟨2, 2, "chest_b", none, none, 0⟩],
          [⟨1, 1, "r", 1, 2, none, true, 0⟩], [], 3, 2⟩ 2 =
      some ⟨2, 2, none, "m2", 0, "online"⟩ ∧
    (2 : Nat) ≠ 1 ∧
    update_route
        ⟨[⟨1, 1, none, "m1", 0, "online"⟩, ⟨2, 2, none, "m2", 0, "online"⟩],
          [⟨1, 1, "chest_a", none, none, 0⟩, ⟨2, 2, "chest_b", none, none, 0⟩],
          [⟨1, 1, "r", 1, 2, none, true, 0⟩], [], 3, 2⟩
        1 1 { name := some "r2" } =
      (.okRoute (some ⟨1, 1, "r2", 1, 2, none, true, 0, "chest_a", 1, "chest_b", 2, []⟩),
        ⟨[⟨1, 1, none, "m1", 0, "online"⟩, ⟨2, 2, none, "m2", 0, "online"⟩],
          [⟨1, 1, "chest_a", none, none, 0⟩, ⟨2, 2, "chest_b", none, none, 0⟩],
          [⟨1, 1, "r2", 1, 2, none, true, 0⟩], [], 3, 2⟩) := by
  decide

/-- C2 as amended: route creation verifies that both the source and the
destination peripheral resolve through their machines to the requesting
user (`Forbidden` on violation, invalid-reference `400` on a missing
peripheral, both without touching the store), but route update and
deletion verify only the route's *current source* peripheral's machine:
with the source owned by the requester they succeed regardless of who
owns the destination, and they reject with `Forbidden` (unchanged
store) only on a foreign source. -/
theorem c2_mutation_ownership (s : ServerState) (uid : Nat) (cd : CreateData)
    (ud : UpdateData) (rid : Nat) (now : Int) :
    (∀ nm spid dpid sp dp sm dm,
      cd.name = some nm → nm ≠ "" → cd.source_peripheral_id = some spid → spid ≠ 0 →
      cd.dest_peripheral_id = some dpid → dpid ≠ 0 →
      Peripheral_get_by_id s spid = some sp → Peripheral_get_by_id s dpid = some dp →
      Machine_get_by_id s sp.machine_id = some sm →
      Machine_get_by_id s dp.machine_id = some dm →
      (sm.user_id ≠ uid ∨ dm.user_id ≠ uid) →
      create_route s uid cd now = (.forbidden "Peripherals must belong to your machines", s)) ∧
    (∀ nm spid dpid,
      cd.name = some nm → nm ≠ "" → cd.source_peripheral_id = some spid → spid ≠ 0 →
      cd.dest_peripheral_id = some dpid → dpid ≠ 0 →
      Peripheral_get_by_id s spid = none ∨ Peripheral_get_by_id s dpid = none →
      create_route s uid cd now = (.badRequest "Invalid peripheral", s)) ∧
    (∀ rv sp sm,
      Route_get_by_id s rid = some rv →
      Peripheral_get_by_id s rv.source_peripheral_id = some sp →
      Machine_get_by_id s sp.machine_id = some sm →
      (sm.user_id ≠ uid →
        update_route s uid rid ud = (.forbidden "Unauthorized", s) ∧
        delete_route s uid rid = (.forbidden "Unauthorized", s)) ∧
      (sm.user_id = uid →
        update_route s uid rid ud =
          (.okRoute (Route_get_by_id (Route_update s rid ud) rid), Route_update s rid ud) ∧
        delete_route s uid rid = (.okSimple, Route_delete s rid))) := by
  refine ⟨?_, ?_, ?_⟩
  · intro nm spid dpid sp dp sm dm hnm hne hs hs0 hd hd0 hsp hdp hsm hdm hviol
    simp [create_route, falsyS, falsyN, hnm, hne, hs, hs0, hd, hd0, hsp, hdp, hsm, hdm,
      hviol]
  · intro nm spid dpid hnm hne hs hs0 hd hd0 hmiss
    rcases hmiss with hm | hm <;>
      · cases hsp : Peripheral_get_by_id s spid <;>
          cases hdp : Peripheral_get_by_id s dpid <;>
          simp_all [create_route, falsyS, falsyN, hnm, hne, hs, hs0, hd, hd0]
  · intro rv sp sm hrv hsp hsm
    constructor
    · intro hno
      constructor
      · simp [update_route, hrv, hsp, hsm, hno]
      · simp [delete_route, hrv, hsp, hsm, hno]
    · intro hyes
      constructor
      · simp [update_route, hrv, hsp, hsm, hyes]
      · simp [delete_route, hrv, hsp, hsm, hyes]

/-- C2 witness: creating a route whose destination belongs to another
user fails with `Forbidden` and leaves the store unchanged, and an
owned-source update succeeds, on the two-user state of the
counterexample scenario. -/
theorem c2_mutation_ownership_witness :
    create_route
        ⟨[⟨1, 1, none, "m1", 0, "online"⟩, ⟨2, 2, none, "m2", 0, "online"⟩],
          [⟨1, 1, "chest_a", none, none, 0⟩, ⟨2, 2, "chest_b", none, none, 0⟩],
          [⟨1, 1, "r", 1, 2, none, true, 0⟩], [], 3, 2⟩
        1 ⟨some "r9", some 1, some 2, none, []⟩ 7 =
      (.forbidden "Peripherals must belong to your machines",
        ⟨[⟨1, 1, none, "m1", 0, "online"⟩, ⟨2, 2, none, "m2", 0, "online"⟩],
          [⟨1, 1, "chest_a", none, none, 0⟩, ⟨2, 2, "chest_b", none, none, 0⟩],
          [⟨1, 1, "r", 1, 2, none, true, 0⟩], [], 3, 2⟩) :=
  (c2_mutation_ownership
      ⟨[⟨1, 1, none, "m1", 0, "online"⟩, ⟨2, 2, none, "m2", 0, "online"⟩],
        [⟨1, 1, "chest_a", none, none, 0⟩, ⟨2, 2, "chest_b", none, none, 0⟩],
        [⟨1, 1, "r", 1, 2, none, true, 0⟩], [], 3, 2⟩
      1 ⟨some "r9", some 1, some 2, none, []⟩ {} 1 7).1
    "r9" 1 2 ⟨1, 1, "chest_a", none, none, 0⟩ ⟨2, 2, "chest_b", none, none, 0⟩
    ⟨1, 1, none, "m1", 0, "online"⟩ ⟨2, 2, none, "m2", 0, "online"⟩
    rfl (by decide) rfl (by decide) rfl (by decide) (by decide) (by decide) (by decide)
    (by decide) (Or.inr (by decide))

end Models

namespace ItemFilter

/-! ## Score arithmetic -/

/-- Cross-multiplication `≤` agrees with the rational order on scores
with positive denominators. -/
theorem sLe_iff (a b : Score) (ha : 0 < a.2) (hb : 0 < b.2) :
    sLe a b = true ↔ scoreQ a ≤ scoreQ b := by
  unfold sLe scoreQ
  rw [decide_eq_true_eq]
  rw [div_le_div_iff (by exact_mod_cast ha) (by exact_mod_cast hb)]
  constructor
  · intro h
    exact_mod_cast h
  · intro h
    exact_mod_cast h

/-- Cross-multiplication `<` agrees with the rational order on scores
with positive denominators. -/
theorem sLt_iff (a b : Score) (ha : 0 < a.2) (hb : 0 < b.2) :
    sLt a b = true ↔ scoreQ a < scoreQ b := by
  unfold sLt scoreQ
  rw [decide_eq_true_eq]
  rw [div_lt_div_iff (by exact_mod_cast ha) (by exact_mod_cast hb)]
  constructor
  · intro h
    exact_mod_cast h
  · intro h
    exact_mod_cast h

/-- Every ratio has a positive denominator. -/
theorem ratioS_den_pos (a b : Str) : 0 < (ratioS a b).2 := by
  unfold ratioS
  split
  next => exact Nat.one_pos
  next h =>
    show 0 < a.length + b.length
    omega

/-- Every similarity score has a positive denominator. -/
theorem similarity_den_pos (a b : Str) : 0 < (similarity a b).2 :=
  ratioS_den_pos (lower a) (lower b)

/-- The threshold has a positive denominator. -/
theorem threshold_den_pos : 0 < (FUZZY_MATCH_THRESHOLD : Score).2 := by decide

/-! ## The catalog dictionary -/

/-- Dict insertion adds the new pair or keeps old pairs (the updated
pair is the new one). -/
theorem dictUpd_mem (d : List (Str × Str)) (k v : Str) (kv : Str × Str)
    (h : kv ∈ dictUpd d k v) : kv ∈ d ∨ kv = (k, v) := by
  unfold dictUpd at h
  split at h
  · rw [List.mem_map] at h
    obtain ⟨kv0, hkv0, rfl⟩ := h
    by_cases h0 : kv0.1 = k
    · right; rw [if_pos h0]
    · left; rw [if_neg h0]; exact hkv0
  · rw [List.mem_append] at h
    rcases h with h | h
    · left; exact h
    · right; simpa using h

/-- Dict insertion keeps every key and adds the new one. -/
theorem dictUpd_key (d : List (Str × Str)) (k v k' : Str) :
    (∃ w, (k', w) ∈ dictUpd d k v) ↔ (∃ w, (k', w) ∈ d) ∨ k' = k := by
  unfold dictUpd
  split
  next hany =>
    constructor
    · rintro ⟨w, hw⟩
      rw [List.mem_map] at hw
      obtain ⟨kv0, hkv0, heq⟩ := hw
      by_cases h0 : kv0.1 = k
      · right
        rw [if_pos h0] at heq
        exact (congrArg Prod.fst heq).symm
      · left
        rw [if_neg h0] at heq
        exact ⟨w, heq ▸ hkv0⟩
    · rintro (⟨w, hw⟩ | rfl)
      · by_cases h0 : k' = k
        · subst h0
          obtain ⟨kv1, hkv1, hp⟩ := List.any_eq_true.mp hany
          refine ⟨v, ?_⟩
          rw [List.mem_map]
          exact ⟨kv1, hkv1, by rw [if_pos (by simpa using hp)]⟩
        · refine ⟨w, ?_⟩
          rw [List.mem_map]
          refine ⟨(k', w), hw, ?_⟩
          rw [if_neg h0]
      · obtain ⟨kv1, hkv1, hp⟩ := List.any_eq_true.mp hany
        refine ⟨v, ?_⟩
        rw [List.mem_map]
        exact ⟨kv1, hkv1, by rw [if_pos (by simpa using hp)]⟩
  next =>
    constructor
    · rintro ⟨w, hw⟩
      rw [List.mem_append] at hw
      rcases hw with hw | hw
      · exact Or.inl ⟨w, hw⟩
      · right
        simpa using (congrArg Prod.fst (List.mem_singleton.mp hw))
    · rintro (⟨w, hw⟩ | rfl)
      · exact ⟨w, List.mem_append_left _ hw⟩
      · exact ⟨v, List.mem_append_right _ (List.mem_singleton.mpr rfl)⟩

/-- Every dict entry's value is a catalog item whose lowercasing is the
entry's key. -/
theorem lowerDict_entry (items : List Str) (kv : Str × Str)
    (h : kv ∈ lowerDict items) : kv.2 ∈ items ∧ lower kv.2 = kv.1 := by
  unfold lowerDict at h
  suffices H : ∀ (es : List Str) (acc : List (Str × Str)),
      kv ∈ es.foldl (fun d it => dictUpd d (lower it) it) acc →
      kv ∈ acc ∨ (kv.2 ∈ es ∧ lower kv.2 = kv.1) by
    rcases H items [] h with h0 | h0
    · cases h0
    · exact h0
  intro es
  induction es with
  | nil => intro acc h0; exact Or.inl h0
  | cons e es ih =>
    intro acc h0
    rcases ih (dictUpd acc (lower e) e) h0 with h1 | h1
    · rcases dictUpd_mem acc (lower e) e kv h1 with h2 | h2
      · exact Or.inl h2
      · subst h2
        exact Or.inr ⟨List.mem_cons_self e es, rfl⟩
    · exact Or.inr ⟨List.mem_cons_of_mem e h1.1, h1.2⟩

/-- A key is in the dict exactly when some catalog item lowercases to
it. -/
theorem lowerDict_key (items : List Str) (k : Str) :
    (∃ w, (k, w) ∈ lowerDict items) ↔ ∃ e ∈ items, lower e = k := by
  unfold lowerDict
  suffices H : ∀ (es : List Str) (acc : List (Str × Str)),
      (∃ w, (k, w) ∈ es.foldl (fun d it => dictUpd d (lower it) it) acc) ↔
        (∃ w, (k, w) ∈ acc) ∨ ∃ e ∈ es, lower e = k by
    rw [H items []]
    simp
  intro es
  induction es with
  | nil => intro acc; simp
  | cons e es ih =>
    intro acc
    rw [List.foldl_cons, ih (dictUpd acc (lower e) e), dictUpd_key]
    constructor
    · rintro ((h | rfl) | h)
      · exact Or.inl h
      · exact Or.inr ⟨e, List.mem_cons_self e es, rfl⟩
      · obtain ⟨e', he', hl⟩ := h
        exact Or.inr ⟨e', List.mem_cons_of_mem e he', hl⟩
    · rintro (h | ⟨e', he', hl⟩)
      · exact Or.inl (Or.inl h)
      · rcases List.mem_cons.mp he' with rfl | he''
        · exact Or.inl (Or.inr hl.symm)
        · exact Or.inr ⟨e', he'', hl⟩

end ItemFilter

namespace ItemFilter

/-! ## Dictionary lookup -/

/-- A successful lookup returns a stored pair. -/
theorem dfind_some (d : List (Str × Str)) (k v : Str) (h : dfind d k = some v) :
    (k, v) ∈ d := by
  unfold dfind at h
  cases hf : d.find? fun kv => decide (kv.1 = k) with
  | none => rw [hf] at h; cases h
  | some kv =>
    rw [hf] at h
    have hk : kv.1 = k := by simpa using List.find?_some hf
    have hm : kv ∈ d := List.mem_of_find?_eq_some hf
    cases h
    rw [← hk]
    exact hm

/-- A present key is found. -/
theorem dfind_isSome (d : List (Str × Str)) (k : Str) (h : ∃ w, (k, w) ∈ d) :
    (dfind d k).isSome := by
  obtain ⟨w, hw⟩ := h
  have hs : (d.find? fun kv => decide (kv.1 = k)).isSome :=
    List.find?_isSome.mpr ⟨(k, w), hw, by simp⟩
  unfold dfind
  cases hf : d.find? fun kv => decide (kv.1 = k) with
  | none => rw [hf] at hs; cases hs
  | some kv => simp

/-- A failed lookup means the key is absent. -/
theorem dfind_eq_none (d : List (Str × Str)) (k : Str) :
    dfind d k = none ↔ ∀ kv ∈ d, kv.1 ≠ k := by
  unfold dfind
  rw [Option.map_eq_none', List.find?_eq_none]
  constructor
  · intro h kv hkv
    simpa using h kv hkv
  · intro h kv hkv
    simpa using h kv hkv

/-! ## The prefix-tier sort -/

/-- Stable insertion by key length keeps the same elements. -/
theorem insLen_perm (x : Str × Str) (l : List (Str × Str)) :
    List.Perm (insLen x l) (x :: l) := by
  induction l with
  | nil => exact List.Perm.refl _
  | cons y ys ih =>
    unfold insLen
    by_cases h : y.1.length < x.1.length
    · rw [if_pos h]
      exact List.Perm.trans (List.Perm.cons y ih) (List.Perm.swap x y ys)
    · rw [if_neg h]

/-- The prefix-tier sort is a permutation. -/
theorem sortLen_perm (l : List (Str × Str)) : List.Perm (sortLen l) l := by
  induction l with
  | nil => exact List.Perm.refl _
  | cons x xs ih =>
    exact List.Perm.trans (insLen_perm x (sortLen xs)) (List.Perm.cons x ih)

/-- Stable insertion preserves the ascending-by-length invariant. -/
theorem insLen_pairwise (x : Str × Str) (l : List (Str × Str))
    (h : l.Pairwise fun a b => a.1.length ≤ b.1.length) :
    (insLen x l).Pairwise fun a b => a.1.length ≤ b.1.length := by
  induction l with
  | nil => simp [insLen]
  | cons y ys ih =>
    rw [List.pairwise_cons] at h
    obtain ⟨hy, hys⟩ := h
    unfold insLen
    by_cases hc : y.1.length < x.1.length
    · rw [if_pos hc]
      rw [List.pairwise_cons]
      refine ⟨?_, ih hys⟩
      intro a ha
      rcases List.mem_cons.mp ((insLen_perm x ys).mem_iff.mp ha) with rfl | ha'
      · exact Nat.le_of_lt hc
      · exact hy a ha'
    · rw [if_neg hc]
      rw [List.pairwise_cons]
      refine ⟨?_, List.pairwise_cons.mpr ⟨hy, hys⟩⟩
      intro a ha
      rcases List.mem_cons.mp ha with rfl | ha'
      · omega
      · exact Nat.le_trans (by omega) (hy a ha')

/-- The prefix-tier sort is ascending by key length. -/
theorem sortLen_pairwise (l : List (Str × Str)) :
    (sortLen l).Pairwise fun a b => a.1.length ≤ b.1.length := by
  induction l with
  | nil => simp [sortLen]
  | cons x xs ih => exact insLen_pairwise x (sortLen xs) ih

/-- The head of the sorted prefix-match list is one of the entries and
has minimal key length. -/
theorem sortLen_head_min (l : List (Str × Str)) (kv : Str × Str)
    (rest : List (Str × Str)) (h : sortLen l = kv :: rest) :
    kv ∈ l ∧ ∀ kv' ∈ l, kv.1.length ≤ kv'.1.length := by
  have hperm := sortLen_perm l
  rw [h] at hperm
  constructor
  · exact hperm.mem_iff.mp (List.mem_cons_self kv rest)
  · intro kv' hkv'
    have : kv' ∈ kv :: rest := hperm.mem_iff.mpr hkv'
    rcases List.mem_cons.mp this with rfl | hr
    · exact Nat.le_refl _
    · have hp := sortLen_pairwise l
      rw [h, List.pairwise_cons] at hp
      exact hp.1 kv' hr

/-- An empty sort means an empty input. -/
theorem sortLen_eq_nil (l : List (Str × Str)) (h : sortLen l = []) : l = [] := by
  have hperm := sortLen_perm l
  rw [h] at hperm
  exact (List.Perm.nil_eq hperm).symm

end ItemFilter


namespace ItemFilter

/-! ## Score-order helpers -/

/-- `sLe` is reflexive. -/
theorem sLe_refl (a : Score) : sLe a a = true := by
  simp [sLe]

/-- `sLe` is transitive on scores with positive denominators. -/
theorem sLe_trans (a b c : Score) (ha : 0 < a.2) (hb : 0 < b.2) (hc : 0 < c.2)
    (h1 : sLe a b = true) (h2 : sLe b c = true) : sLe a c = true := by
  rw [sLe_iff a b ha hb] at h1
  rw [sLe_iff b c hb hc] at h2
  rw [sLe_iff a c ha hc]
  exact le_trans h1 h2

/-- A failed `sLe` flips into a strict `sLt` the other way. -/
theorem sLt_of_not_sLe (a b : Score) (ha : 0 < a.2) (hb : 0 < b.2)
    (h : sLe a b = false) : sLt b a = true := by
  rw [sLt_iff b a hb ha]
  refine lt_of_not_le fun hle => ?_
  have : sLe a b = true := (sLe_iff a b ha hb).mpr hle
  rw [h] at this
  cases this

/-- A failed `sLe` gives `sLe` the other way. -/
theorem sLe_of_not_sLe (a b : Score) (ha : 0 < a.2) (hb : 0 < b.2)
    (h : sLe a b = false) : sLe b a = true := by
  rw [sLe_iff b a hb ha]
  exact le_of_lt ((sLt_iff b a hb ha).mp (sLt_of_not_sLe a b ha hb h))

/-- `sLe` forbids a strict `sLt` the other way. -/
theorem not_sLt_of_sLe (a b : Score) (ha : 0 < a.2) (hb : 0 < b.2)
    (h : sLe a b = true) : sLt b a = false := by
  cases hv : sLt b a
  · rfl
  · have hlt := (sLt_iff b a hb ha).mp hv
    exact absurd ((sLe_iff a b ha hb).mp h) (not_le.mpr hlt)

/-! ## `bestFuzzy` facts -/

/-- When `bestFuzzy` finds nothing, no entry reaches the threshold. -/
theorem bestFuzzy_none_forall (t : Str) (l : List (Str × Str))
    (h : bestFuzzy t l = none) :
    ∀ kv ∈ l, sLe FUZZY_MATCH_THRESHOLD (similarity t kv.1) = false := by
  induction l with
  | nil => intro kv hkv; cases hkv
  | cons kv0 rest ih =>
    intro kv hkv
    unfold bestFuzzy at h
    split at h
    next hbr =>
      split at h
      next => cases h
      next hc =>
        rcases List.mem_cons.mp hkv with rfl | hr
        · simpa using hc
        · exact ih hbr kv hr
    next xm hbr =>
      split at h <;> cases h

/-- What a successful `bestFuzzy` returns: a thresholded entry of the
list carrying the maximal score (head preference on ties is built into
the recursion). -/
theorem bestFuzzy_some_facts (t : Str) (l : List (Str × Str)) (x : Str) (m : Score)
    (h : bestFuzzy t l = some (x, m)) :
    sLe FUZZY_MATCH_THRESHOLD m = true ∧ 0 < m.2 ∧
      (∃ kv ∈ l, kv.2 = x ∧ similarity t kv.1 = m) ∧
      ∀ kv ∈ l, sLe (similarity t kv.1) m = true := by
  induction l generalizing x m with
  | nil => cases h
  | cons kv0 rest ih =>
    unfold bestFuzzy at h
    have hθ : 0 < (FUZZY_MATCH_THRESHOLD : Score).2 := threshold_den_pos
    have hsc : 0 < (similarity t kv0.1).2 := similarity_den_pos t kv0.1
    split at h
    next hbr =>
      split at h
      next hc =>
        cases h
        refine ⟨hc, hsc, ⟨kv0, List.mem_cons_self kv0 rest, rfl, rfl⟩, ?_⟩
        intro kv hkv
        rcases List.mem_cons.mp hkv with rfl | hr
        · exact sLe_refl _
        · have hbelow := bestFuzzy_none_forall t rest hbr kv hr
          have h1 := sLe_of_not_sLe FUZZY_MATCH_THRESHOLD (similarity t kv.1)
            hθ (similarity_den_pos t kv.1) hbelow
          exact sLe_trans _ _ _ (similarity_den_pos t kv.1) hθ hsc h1 hc
      next hc => cases h
    next xm hbr =>
      obtain ⟨x', m'⟩ := xm
      obtain ⟨hθm', hm', hex, hall⟩ := ih x' m' hbr
      split at h
      next hc =>
        cases h
        refine ⟨sLe_trans _ _ _ hθ hm' hsc hθm' hc, hsc,
          ⟨kv0, List.mem_cons_self kv0 rest, rfl, rfl⟩, ?_⟩
        intro kv hkv
        rcases List.mem_cons.mp hkv with rfl | hr
        · exact sLe_refl _
        · exact sLe_trans _ _ _ (similarity_den_pos t kv.1) hm' hsc (hall kv hr) hc
      next hc =>
        cases h
        refine ⟨hθm', hm', ?_, ?_⟩
        · obtain ⟨kv', hkv', hv, hs⟩ := hex
          exact ⟨kv', List.mem_cons_of_mem kv0 hkv', hv, hs⟩
        · intro kv hkv
          rcases List.mem_cons.mp hkv with rfl | hr
          · exact sLe_of_not_sLe _ _ hm' hsc (Bool.eq_false_iff.mpr hc)
          · exact hall kv hr

end ItemFilter

namespace ItemFilter

/-- Unfolding `bestFuzzy` over a cons whose tail found nothing. -/
theorem bestFuzzy_cons_none (t : Str) (kv : Str × Str) (rest : List (Str × Str))
    (h : bestFuzzy t rest = none) :
    bestFuzzy t (kv :: rest) =
      if sLe FUZZY_MATCH_THRESHOLD (similarity t kv.1) then
        some (kv.2, similarity t kv.1)
      else none := by
  unfold bestFuzzy
  rw [h]

/-- Unfolding `bestFuzzy` over a cons whose tail found a best entry. -/
theorem bestFuzzy_cons_some (t : Str) (kv : Str × Str) (rest : List (Str × Str))
    (xm : Str × Score) (h : bestFuzzy t rest = some xm) :
    bestFuzzy t (kv :: rest) =
      if sLe xm.2 (similarity t kv.1) then some (kv.2, similarity t kv.1) else some xm := by
  unfold bestFuzzy
  rw [h]

/-- The accumulator loop of the code's fuzzy tier, started anywhere,
lands on `bestFuzzy`'s answer whenever it beats the starting score. -/
theorem fuzzyFold_go (t : Str) (l : List (Str × Str)) :
    ∀ (b : Option Str) (s : Score), 0 < s.2 →
      (l.foldl
          (fun acc kv =>
            let sc := similarity t kv.1
            if sLt acc.2 sc && sLe FUZZY_MATCH_THRESHOLD sc then (some kv.2, sc) else acc)
          (b, s)) =
        match bestFuzzy t l with
        | none => (b, s)
        | some xm => if sLt s xm.2 = true then (some xm.1, xm.2) else (b, s) := by
  induction l with
  | nil =>
    intro b s hs
    simp [bestFuzzy]
  | cons kv rest ih =>
    intro b s hs
    have hsc : 0 < (similarity t kv.1).2 := similarity_den_pos t kv.1
    have hθ : 0 < (FUZZY_MATCH_THRESHOLD : Score).2 := threshold_den_pos
    rw [List.foldl_cons]
    show List.foldl
        (fun acc kv =>
          let sc := similarity t kv.1
          if sLt acc.2 sc && sLe FUZZY_MATCH_THRESHOLD sc then (some kv.2, sc) else acc)
        (if sLt s (similarity t kv.1) && sLe FUZZY_MATCH_THRESHOLD (similarity t kv.1) then
            ((some kv.2 : Option Str), similarity t kv.1)
          else (b, s))
        rest =
      match bestFuzzy t (kv :: rest) with
      | none => (b, s)
      | some xm => if sLt s xm.2 = true then (some xm.1, xm.2) else (b, s)
    by_cases h2 : sLe FUZZY_MATCH_THRESHOLD (similarity t kv.1) = true
    · by_cases h1 : sLt s (similarity t kv.1) = true
      · rw [if_pos (by rw [h1, h2]; rfl)]
        rw [ih (some kv.2) (similarity t kv.1) hsc]
        cases hbr : bestFuzzy t rest with
        | none =>
          rw [bestFuzzy_cons_none t kv rest hbr, if_pos h2]
          simp [h1]
        | some xm =>
          obtain ⟨hθm, hm, -, -⟩ := bestFuzzy_some_facts t rest xm.1 xm.2 hbr
          rw [bestFuzzy_cons_some t kv rest xm hbr]
          by_cases hmsc : sLe xm.2 (similarity t kv.1) = true
          · rw [if_pos hmsc]
            simp [not_sLt_of_sLe xm.2 (similarity t kv.1) hm hsc hmsc, h1]
          · rw [if_neg hmsc]
            have hlt : sLt (similarity t kv.1) xm.2 = true :=
              sLt_of_not_sLe xm.2 (similarity t kv.1) hm hsc (Bool.eq_false_iff.mpr hmsc)
            have hsm : sLt s xm.2 = true := by
              rw [sLt_iff _ _ hs hm]
              exact lt_trans ((sLt_iff _ _ hs hsc).mp h1) ((sLt_iff _ _ hsc hm).mp hlt)
            simp [hlt, hsm]
      · rw [if_neg (by rw [h2]; simpa using h1)]
        rw [ih b s hs]
        cases hbr : bestFuzzy t rest with
        | none =>
          rw [bestFuzzy_cons_none t kv rest hbr, if_pos h2]
          simp [h1]
        | some xm =>
          obtain ⟨hθm, hm, -, -⟩ := bestFuzzy_some_facts t rest xm.1 xm.2 hbr
          rw [bestFuzzy_cons_some t kv rest xm hbr]
          by_cases hmsc : sLe xm.2 (similarity t kv.1) = true
          · rw [if_pos hmsc]
            have hnot : sLt s xm.2 = false := by
              cases hv : sLt s xm.2
              · rfl
              · exfalso
                have h1' : ¬ scoreQ s < scoreQ (similarity t kv.1) := by
                  intro hq
                  exact absurd ((sLt_iff _ _ hs hsc).mpr hq) (by simp [h1])
                have hq1 := (sLt_iff _ _ hs hm).mp hv
                have hq2 := (sLe_iff _ _ hm hsc).mp hmsc
                exact h1' (lt_of_lt_of_le hq1 hq2)
            have hnot2 : sLt s (similarity t kv.1) = false := by simpa using h1
            simp [hnot, hnot2]
          · rw [if_neg hmsc]
    · have h2f : sLe FUZZY_MATCH_THRESHOLD (similarity t kv.1) = false :=
        Bool.eq_false_iff.mpr h2
      rw [if_neg (by rw [h2f]; simp)]
      rw [ih b s hs]
      cases hbr : bestFuzzy t rest with
      | none =>
        rw [bestFuzzy_cons_none t kv rest hbr, if_neg h2]
      | some xm =>
        obtain ⟨hθm, hm, -, -⟩ := bestFuzzy_some_facts t rest xm.1 xm.2 hbr
        rw [bestFuzzy_cons_some t kv rest xm hbr]
        have hmsc : sLe xm.2 (similarity t kv.1) = false := by
          cases hv : sLe xm.2 (similarity t kv.1)
          · rfl
          · exact absurd (sLe_trans _ _ _ hθ hm hsc hθm hv) h2
        rw [if_neg (by simp [hmsc])]

end ItemFilter

namespace ItemFilter

/-- The code's fuzzy tier computes exactly `bestFuzzy`. -/
theorem fuzzyFold_eq (t : Str) (d : List (Str × Str)) :
    fuzzyFold t d =
      match bestFuzzy t d with
      | none => (none, (0, 1))
      | some xm => (some xm.1, xm.2) := by
  unfold fuzzyFold
  rw [fuzzyFold_go t d none (0, 1) (by norm_num)]
  cases hbr : bestFuzzy t d with
  | none => rfl
  | some xm =>
    obtain ⟨hθm, hm, -, -⟩ := bestFuzzy_some_facts t d xm.1 xm.2 hbr
    have hpos : sLt (0, 1) xm.2 = true := by
      unfold sLt
      rw [decide_eq_true_eq]
      unfold sLe FUZZY_MATCH_THRESHOLD at hθm
      rw [decide_eq_true_eq] at hθm
      simp only [Prod.fst, Prod.snd] at *
      omega
    show (if sLt (0, 1) xm.2 = true then ((some xm.1 : Option Str), xm.2)
        else (none, 0, 1)) = ((some xm.1 : Option Str), xm.2)
    rw [if_pos hpos]

/-- Matching against an empty string scores zero matched characters. -/
theorem rmatchF_nil_right (fuel : Nat) (a : Str) : rmatchF fuel a [] = 0 := by
  cases fuel with
  | zero => rfl
  | succ n =>
    have hemp : ∀ L : List Nat, (L.flatMap fun _ => ([] : List (Nat × Nat × Nat))) = [] := by
      intro L
      induction L with
      | nil => rfl
      | cons x xs ih => simpa using ih
    have hflm : flm a [] = (0, 0, 0) := by
      unfold flm cands
      simp [hemp]
    simp [rmatchF, hflm]

/-- Similarity of a non-empty string with the empty string is `0/n`,
which sits below the threshold. -/
theorem sim_empty_below (t : Str) (ht : t ≠ []) :
    sLe FUZZY_MATCH_THRESHOLD (similarity t []) = false := by
  have hlen : t.length ≠ 0 := fun h => ht (List.eq_nil_of_length_eq_zero h)
  have hsim : similarity t [] = (0, t.length) := by
    unfold similarity ratioS
    rw [if_neg (by simpa [lower] using hlen)]
    simp [lower, rmatch, rmatchF_nil_right]
  rw [hsim]
  unfold sLe FUZZY_MATCH_THRESHOLD
  rw [decide_eq_false_iff_not]
  show ¬(3 * t.length ≤ 0 * 5)
  omega

/-- The empty string is the only string lowercasing to the empty
string. -/
theorem lower_eq_nil (e : Str) (h : lower e = []) : e = [] := by
  cases e with
  | nil => rfl
  | cons c cs => cases h

end ItemFilter

namespace ItemFilter

/-- Looking a key up in the catalog dictionary, successful form. -/
theorem dfind_lowerDict_some (items : List Str) (k : Str)
    (h : ∃ e ∈ items, lower e = k) :
    ∃ v, dfind (lowerDict items) k = some v ∧ v ∈ items ∧ lower v = k := by
  have hex : ∃ w, (k, w) ∈ lowerDict items := (lowerDict_key items k).mpr h
  have hs := dfind_isSome (lowerDict items) k hex
  cases hv : dfind (lowerDict items) k with
  | none => rw [hv] at hs; cases hs
  | some v =>
    have hmem := dfind_some _ _ _ hv
    obtain ⟨hm, hl⟩ := lowerDict_entry items (k, v) hmem
    exact ⟨v, rfl, hm, hl⟩

/-- Looking a key up in the catalog dictionary, failing form. -/
theorem dfind_lowerDict_none (items : List Str) (k : Str)
    (h : ∀ e ∈ items, lower e ≠ k) : dfind (lowerDict items) k = none := by
  rw [dfind_eq_none]
  intro kv hkv hk
  obtain ⟨hm, hl⟩ := lowerDict_entry items kv hkv
  exact h kv.2 hm (by rw [hl, hk])

/-- The abbreviation tier yields nothing when the token does not expand
or no catalog entry matches the expansion. -/
theorem tier2_none (items : List Str) (t : Str)
    (h2 : expand_abbreviation t = t ∨
      ∀ e ∈ items, lower e ≠ lower (expand_abbreviation t)) :
    (if expand_abbreviation t ≠ t then
        dfind (lowerDict items) (lower (expand_abbreviation t))
      else none) = none := by
  rcases h2 with heq | hall
  · rw [if_neg (by simp [heq])]
  · by_cases hne : expand_abbreviation t ≠ t
    · rw [if_pos hne]
      exact dfind_lowerDict_none items _ hall
    · rw [if_neg hne]

/-- Tier 1 of `fuzzy_match_item`: a case-insensitive exact match wins. -/
theorem resolve_exact (tok : Str) (items : List Str)
    (hex : ∃ e ∈ items, lower e = stripWs (lower tok)) :
    ∃ e ∈ items, lower e = stripWs (lower tok) ∧
      fuzzy_match_item tok items = some (e, .exact) := by
  obtain ⟨v, hv, hm, hl⟩ := dfind_lowerDict_some items (stripWs (lower tok)) hex
  refine ⟨v, hm, hl, ?_⟩
  simp only [fuzzy_match_item, hv]

/-- Tier 2 of `fuzzy_match_item`: with no exact match, an exact match
of the expanded abbreviation wins. -/
theorem resolve_abbr (tok : Str) (items : List Str)
    (hnoex : ∀ e ∈ items, lower e ≠ stripWs (lower tok))
    (hne : expand_abbreviation (stripWs (lower tok)) ≠ stripWs (lower tok))
    (hex : ∃ e ∈ items,
      lower e = lower (expand_abbreviation (stripWs (lower tok)))) :
    ∃ e ∈ items, lower e = lower (expand_abbreviation (stripWs (lower tok))) ∧
      fuzzy_match_item tok items = some (e, .abbr) := by
  obtain ⟨v, hv, hm, hl⟩ := dfind_lowerDict_some items _ hex
  have hnone := dfind_lowerDict_none items _ hnoex
  refine ⟨v, hm, hl, ?_⟩
  simp only [fuzzy_match_item, hnone, if_pos hne, hv]

/-- Tier 3 of `fuzzy_match_item`: with the first two tiers empty, the
shortest catalog entry extending the token wins. -/
theorem resolve_pref (tok : Str) (items : List Str)
    (hnoex : ∀ e ∈ items, lower e ≠ stripWs (lower tok))
    (h2 : expand_abbreviation (stripWs (lower tok)) = stripWs (lower tok) ∨
      ∀ e ∈ items,
        lower e ≠ lower (expand_abbreviation (stripWs (lower tok))))
    (hexp : ∃ e ∈ items, isPre (stripWs (lower tok)) (lower e) = true) :
    ∃ e ∈ items, isPre (stripWs (lower tok)) (lower e) = true ∧
      (∀ e' ∈ items, isPre (stripWs (lower tok)) (lower e') = true →
        (lower e).length ≤ (lower e').length) ∧
      fuzzy_match_item tok items = some (e, .pref) := by
  have hnone := dfind_lowerDict_none items _ hnoex
  have h2none := tier2_none items (stripWs (lower tok)) h2
  obtain ⟨e0, he0, hp0⟩ := hexp
  obtain ⟨w, hw⟩ := (lowerDict_key items (lower e0)).mpr ⟨e0, he0, rfl⟩
  have hwf : (lower e0, w) ∈
      (lowerDict items).filter fun kv => isPre (stripWs (lower tok)) kv.1 := by
    rw [List.mem_filter]
    exact ⟨hw, hp0⟩
  cases hsort : sortLen ((lowerDict items).filter
      fun kv => isPre (stripWs (lower tok)) kv.1) with
  | nil =>
    exfalso
    rw [sortLen_eq_nil _ hsort] at hwf
    cases hwf
  | cons kv0 rest =>
    obtain ⟨hkv0mem, hmin⟩ := sortLen_head_min _ kv0 rest hsort
    rw [List.mem_filter] at hkv0mem
    obtain ⟨hkv0d, hkv0p⟩ := hkv0mem
    obtain ⟨hm2, hl2⟩ := lowerDict_entry items kv0 hkv0d
    refine ⟨kv0.2, hm2, by rw [hl2]; exact hkv0p, ?_, ?_⟩
    · intro e' he' hp'
      obtain ⟨w', hw'⟩ := (lowerDict_key items (lower e')).mpr ⟨e', he', rfl⟩
      have hmem' : (lower e', w') ∈
          (lowerDict items).filter fun kv => isPre (stripWs (lower tok)) kv.1 := by
        rw [List.mem_filter]
        exact ⟨hw', hp'⟩
      have := hmin _ hmem'
      rw [hl2]
      exact this
    · simp only [fuzzy_match_item, hnone, h2none, hsort]

/-- Tier 4 of `fuzzy_match_item`: with the first three tiers empty, the
highest-scoring thresholded entry wins. -/
theorem resolve_fuzzy (tok : Str) (items : List Str)
    (hnoex : ∀ e ∈ items, lower e ≠ stripWs (lower tok))
    (h2 : expand_abbreviation (stripWs (lower tok)) = stripWs (lower tok) ∨
      ∀ e ∈ items,
        lower e ≠ lower (expand_abbreviation (stripWs (lower tok))))
    (hnopre : ∀ e ∈ items, isPre (stripWs (lower tok)) (lower e) = false)
    (hfz : ∃ e ∈ items,
      sLe FUZZY_MATCH_THRESHOLD (similarity (stripWs (lower tok)) (lower e)) = true) :
    ∃ e ∈ items,
      sLe FUZZY_MATCH_THRESHOLD (similarity (stripWs (lower tok)) (lower e)) = true ∧
      (∀ e' ∈ items,
        sLe (similarity (stripWs (lower tok)) (lower e'))
          (similarity (stripWs (lower tok)) (lower e)) = true) ∧
      fuzzy_match_item tok items = some (e, .fuzzy) := by
  have hnone := dfind_lowerDict_none items _ hnoex
  have h2none := tier2_none items (stripWs (lower tok)) h2
  have hfilnil : ((lowerDict items).filter
      fun kv => isPre (stripWs (lower tok)) kv.1) = [] := by
    rw [List.filter_eq_nil]
    intro kv hkv
    obtain ⟨hm, hl⟩ := lowerDict_entry items kv hkv
    rw [← hl]
    simp [hnopre kv.2 hm]
  have hsortnil : sortLen ((lowerDict items).filter
      fun kv => isPre (stripWs (lower tok)) kv.1) = [] := by
    rw [hfilnil]
    rfl
  obtain ⟨e0, he0, hsc0⟩ := hfz
  have htne : stripWs (lower tok) ≠ [] := by
    intro h0
    have hx := hnopre e0 he0
    rw [h0] at hx
    rw [show isPre [] (lower e0) = true from rfl] at hx
    cases hx
  cases hbf : bestFuzzy (stripWs (lower tok)) (lowerDict items) with
  | none =>
    exfalso
    obtain ⟨w, hw⟩ := (lowerDict_key items (lower e0)).mpr ⟨e0, he0, rfl⟩
    have hbb := bestFuzzy_none_forall _ _ hbf (lower e0, w) hw
    dsimp only at hbb
    rw [hsc0] at hbb
    cases hbb
  | some xm =>
    obtain ⟨hθm, hmpos, ⟨kv, hkvd, hkvx, hkvs⟩, hall⟩ :=
      bestFuzzy_some_facts _ _ xm.1 xm.2 hbf
    obtain ⟨hkm, hkl⟩ := lowerDict_entry items kv hkvd
    have hsim2 : similarity (stripWs (lower tok)) (lower kv.2) = xm.2 := by
      rw [hkl]
      exact hkvs
    have hne : kv.2 ≠ [] := by
      intro h0
      have h1 : kv.1 = [] := by rw [← hkl, h0]; rfl
      rw [h1] at hkvs
      have hbelow := sim_empty_below (stripWs (lower tok)) htne
      rw [hkvs, hθm] at hbelow
      cases hbelow
    refine ⟨kv.2, hkm, by rw [hsim2]; exact hθm, ?_, ?_⟩
    · intro e' he'
      obtain ⟨w', hw'⟩ := (lowerDict_key items (lower e')).mpr ⟨e', he', rfl⟩
      have := hall (lower e', w') hw'
      dsimp only at this
      rw [hsim2]
      exact this
    · simp only [fuzzy_match_item, hnone, h2none, hsortnil]
      rw [fuzzyFold_eq, hbf]
      show (if xm.1 = [] then none else some (xm.1, MatchKind.fuzzy)) =
        some (kv.2, MatchKind.fuzzy)
      rw [if_neg (hkvx ▸ hne), ← hkvx]

/-- With all four tiers empty, `fuzzy_match_item` reports no match. -/
theorem resolve_notfound (tok : Str) (items : List Str)
    (hnoex : ∀ e ∈ items, lower e ≠ stripWs (lower tok))
    (h2 : expand_abbreviation (stripWs (lower tok)) = stripWs (lower tok) ∨
      ∀ e ∈ items,
        lower e ≠ lower (expand_abbreviation (stripWs (lower tok))))
    (hnopre : ∀ e ∈ items, isPre (stripWs (lower tok)) (lower e) = false)
    (hbelow : ∀ e ∈ items,
      sLe FUZZY_MATCH_THRESHOLD (similarity (stripWs (lower tok)) (lower e)) = false) :
    fuzzy_match_item tok items = none := by
  have hnone := dfind_lowerDict_none items _ hnoex
  have h2none := tier2_none items (stripWs (lower tok)) h2
  have hfilnil : ((lowerDict items).filter
      fun kv => isPre (stripWs (lower tok)) kv.1) = [] := by
    rw [List.filter_eq_nil]
    intro kv hkv
    obtain ⟨hm, hl⟩ := lowerDict_entry items kv hkv
    rw [← hl]
    simp [hnopre kv.2 hm]
  have hsortnil : sortLen ((lowerDict items).filter
      fun kv => isPre (stripWs (lower tok)) kv.1) = [] := by
    rw [hfilnil]
    rfl
  have hbf : bestFuzzy (stripWs (lower tok)) (lowerDict items) = none := by
    cases hbf : bestFuzzy (stripWs (lower tok)) (lowerDict items) with
    | none => rfl
    | some xm =>
      exfalso
      obtain ⟨hθm, -, ⟨kv, hkvd, -, hkvs⟩, -⟩ :=
        bestFuzzy_some_facts _ _ xm.1 xm.2 hbf
      obtain ⟨hm, hl⟩ := lowerDict_entry items kv hkvd
      have hx := hbelow kv.2 hm
      rw [hl, hkvs, hθm] at hx
      cases hx
  simp only [fuzzy_match_item, hnone, h2none, hsortnil]
  rw [fuzzyFold_eq, hbf]

end ItemFilter

namespace ItemFilter

/-- C4: `fuzzy_match_item` evaluates its four tiers in strict priority
order over the normalised (lowercased, stripped) token: (1) with a
case-insensitive exact match present, the result is that entry tagged
exact, whatever the other tiers would say; (2) otherwise, when the
token expands through the abbreviation table and the expansion matches
exactly, the result is that entry tagged abbreviation; (3) otherwise,
when prefix completions exist, the result is a shortest one, tagged
prefix; (4) otherwise, when some entry scores at or above the 0.6
threshold, the result is a highest-scoring entry tagged fuzzy; and with
all four tiers empty the result is `none` (not found), not an error. -/
theorem c4_resolve_strict_tiers (tok : Str) (items : List Str) :
    ((∃ e ∈ items, lower e = stripWs (lower tok)) →
      ∃ e ∈ items, lower e = stripWs (lower tok) ∧
        fuzzy_match_item tok items = some (e, .exact)) ∧
    ((∀ e ∈ items, lower e ≠ stripWs (lower tok)) →
      expand_abbreviation (stripWs (lower tok)) ≠ stripWs (lower tok) →
      (∃ e ∈ items,
        lower e = lower (expand_abbreviation (stripWs (lower tok)))) →
      ∃ e ∈ items, lower e = lower (expand_abbreviation (stripWs (lower tok))) ∧
        fuzzy_match_item tok items = some (e, .abbr)) ∧
    ((∀ e ∈ items, lower e ≠ stripWs (lower tok)) →
      (expand_abbreviation (stripWs (lower tok)) = stripWs (lower tok) ∨
        ∀ e ∈ items,
          lower e ≠ lower (expand_abbreviation (stripWs (lower tok)))) →
      (∃ e ∈ items, isPre (stripWs (lower tok)) (lower e) = true) →
      ∃ e ∈ items, isPre (stripWs (lower tok)) (lower e) = true ∧
        (∀ e' ∈ items, isPre (stripWs (lower tok)) (lower e') = true →
          (lower e).length ≤ (lower e').length) ∧
        fuzzy_match_item tok items = some (e, .pref)) ∧
    ((∀ e ∈ items, lower e ≠ stripWs (lower tok)) →
      (expand_abbreviation (stripWs (lower tok)) = stripWs (lower tok) ∨
        ∀ e ∈ items,
          lower e ≠ lower (expand_abbreviation (stripWs (lower tok)))) →
      (∀ e ∈ items, isPre (stripWs (lower tok)) (lower e) = false) →
      (∃ e ∈ items,
        sLe FUZZY_MATCH_THRESHOLD
          (similarity (stripWs (lower tok)) (lower e)) = true) →
      ∃ e ∈ items,
        sLe FUZZY_MATCH_THRESHOLD
          (similarity (stripWs (lower tok)) (lower e)) = true ∧
        (∀ e' ∈ items,
          sLe (similarity (stripWs (lower tok)) (lower e'))
            (similarity (stripWs (lower tok)) (lower e)) = true) ∧
        fuzzy_match_item tok items = some (e, .fuzzy)) ∧
    ((∀ e ∈ items, lower e ≠ stripWs (lower tok)) →
      (expand_abbreviation (stripWs (lower tok)) = stripWs (lower tok) ∨
        ∀ e ∈ items,
          lower e ≠ lower (expand_abbreviation (stripWs (lower tok)))) →
      (∀ e ∈ items, isPre (stripWs (lower tok)) (lower e) = false) →
      (∀ e ∈ items,
        sLe FUZZY_MATCH_THRESHOLD
          (similarity (stripWs (lower tok)) (lower e)) = false) →
      fuzzy_match_item tok items = none) :=
  ⟨resolve_exact tok items, resolve_abbr tok items, resolve_pref tok items,
    resolve_fuzzy tok items, resolve_notfound tok items⟩

/-- C4 witness: the tier theorem applied to concrete catalogs — the
abbreviation tier on `iron_b` against `["iron_block"]`, and the exact
tier on `iron_b` against a catalog containing `IRON_B`. -/
theorem c4_resolve_strict_tiers_witness :
    (∃ e ∈ ["iron_block".data],
      lower e = lower (expand_abbreviation (stripWs (lower "iron_b".data))) ∧
        fuzzy_match_item "iron_b".data ["iron_block".data] = some (e, .abbr)) ∧
    ∃ e ∈ ["IRON_B".data],
      lower e = stripWs (lower "iron_b".data) ∧
        fuzzy_match_item "iron_b".data ["IRON_B".data] = some (e, .exact) :=
  ⟨(c4_resolve_strict_tiers "iron_b".data ["iron_block".data]).2.1
      (by decide) (by decide) (by decide),
    (c4_resolve_strict_tiers "iron_b".data ["IRON_B".data]).1 (by decide)⟩

end ItemFilter

namespace ItemFilter

/-! ## Splitting, joining and lowercasing -/

/-- `Char.ofNat` at a valid code point round-trips. -/
theorem toNat_ofNat_valid (n : Nat) (h : n.isValidChar) : (Char.ofNat n).toNat = n := by
  simp [Char.ofNat, dif_pos h, Char.ofNatAux, Char.toNat, UInt32.toNat]

/-- Lowercasing fixes the underscore and nothing maps onto it. -/
theorem toLower_underscore_iff (c : Char) : Char.toLower c = '_' ↔ c = '_' := by
  constructor
  · unfold Char.toLower
    show (if c.toNat ≥ 65 ∧ c.toNat ≤ 90 then Char.ofNat (c.toNat + 32) else c) = '_' →
      c = '_'
    by_cases hc : c.toNat ≥ 65 ∧ c.toNat ≤ 90
    · rw [if_pos hc]
      intro he
      exfalso
      have h1 := congrArg Char.toNat he
      have hv : (c.toNat + 32).isValidChar := by
        left
        show c.toNat + 32 < 55296
        omega
      rw [toNat_ofNat_valid _ hv] at h1
      have h2 : ('_').toNat = 95 := by decide
      omega
    · rw [if_neg hc]
      exact id
  · intro h
    rw [h]
    decide

/-- `joinU` over a cons with a non-empty tail. -/
theorem joinU_cons (p : Str) (l : List Str) (h : l ≠ []) :
    joinU (p :: l) = p ++ '_' :: joinU l := by
  cases l with
  | nil => exact absurd rfl h
  | cons q rest => rfl

/-- `splitU` never returns the empty list. -/
theorem splitU_ne_nil (s : Str) : splitU s ≠ [] := by
  cases s with
  | nil => simp [splitU]
  | cons c cs =>
    unfold splitU
    by_cases hc : c = '_'
    · rw [if_pos hc]
      simp
    · rw [if_neg hc]
      cases hsp : splitU cs with
      | nil => simp
      | cons p ps => simp

/-- Joining undoes splitting. -/
theorem join_split (s : Str) : joinU (splitU s) = s := by
  induction s with
  | nil => rfl
  | cons c cs ih =>
    unfold splitU
    by_cases hc : c = '_'
    · rw [if_pos hc, joinU_cons [] (splitU cs) (splitU_ne_nil cs), ih, hc]
      rfl
    · rw [if_neg hc]
      cases hsp : splitU cs with
      | nil => exact absurd hsp (splitU_ne_nil cs)
      | cons p ps =>
        cases ps with
        | nil =>
          rw [hsp] at ih
          show c :: p = c :: cs
          rw [show joinU [p] = p from rfl] at ih
          rw [ih]
        | cons q rest =>
          rw [joinU_cons (c :: p) (q :: rest) (by simp)]
          rw [hsp] at ih
          rw [joinU_cons p (q :: rest) (by simp)] at ih
          show c :: (p ++ '_' :: joinU (q :: rest)) = c :: cs
          rw [ih]

/-- Splitting commutes with lowercasing. -/
theorem low_split (s : Str) : splitU (lower s) = (splitU s).map lower := by
  induction s with
  | nil => rfl
  | cons c cs ih =>
    show splitU (Char.toLower c :: lower cs) = (splitU (c :: cs)).map lower
    unfold splitU
    by_cases hc : c = '_'
    · rw [if_pos ((toLower_underscore_iff c).mpr hc), if_pos hc, List.map_cons, ih]
      rfl
    · rw [if_neg (fun h => hc ((toLower_underscore_iff c).mp h)), if_neg hc]
      cases hsp : splitU cs with
      | nil => exact absurd hsp (splitU_ne_nil cs)
      | cons p ps =>
        rw [hsp] at ih
        rw [List.map_cons] at ih
        rw [ih, List.map_cons]
        show (Char.toLower c :: lower p) :: (ps.map lower) =
          lower (c :: p) :: (ps.map lower)
        rfl

/-- Lowercasing commutes with joining. -/
theorem low_joinU (ps : List Str) : lower (joinU ps) = joinU (ps.map lower) := by
  induction ps with
  | nil => rfl
  | cons p l ih =>
    cases l with
    | nil => rfl
    | cons q rest =>
      rw [joinU_cons p (q :: rest) (by simp), List.map_cons,
        joinU_cons (lower p) ((q :: rest).map lower) (by simp), ← ih]
      show (p ++ '_' :: joinU (q :: rest)).map Char.toLower =
        p.map Char.toLower ++ '_' :: (joinU (q :: rest)).map Char.toLower
      rw [List.map_append, List.map_cons]
      rfl

/-- A common prefix can be cancelled in `isPre`. -/
theorem isPre_append (l a b : Str) : isPre (l ++ a) (l ++ b) = isPre a b := by
  induction l with
  | nil => rfl
  | cons c l ih => simp [isPre, ih]

/-- Extending the last `'_'`-separated part to a longer word keeps the
original string a prefix of the result. -/
theorem isPre_joinU (ps : List Str) (x y : Str) (h : isPre x y = true) :
    isPre (joinU (ps ++ [x])) (joinU (ps ++ [y])) = true := by
  induction ps with
  | nil => exact h
  | cons p l ih =>
    rw [List.cons_append, List.cons_append]
    rw [joinU_cons p (l ++ [x]) (by simp), joinU_cons p (l ++ [y]) (by simp)]
    rw [show p ++ '_' :: joinU (l ++ [x]) = (p ++ ['_']) ++ joinU (l ++ [x]) by simp]
    rw [show p ++ '_' :: joinU (l ++ [y]) = (p ++ ['_']) ++ joinU (l ++ [y]) by simp]
    rw [isPre_append]
    exact ih

/-- The abbreviation table's expansions are lowercase and begin with
their abbreviations. -/
theorem abbrev_val (k v : Str) (h : (k, v) ∈ ABBREVIATION_MAP) :
    lower v = v ∧ isPre k v = true := by
  unfold ABBREVIATION_MAP at h
  simp only [List.mem_cons, List.not_mem_nil, or_false, Prod.mk.injEq] at h
  rcases h with ⟨rfl, rfl⟩ | ⟨rfl, rfl⟩ | ⟨rfl, rfl⟩ | ⟨rfl, rfl⟩ | ⟨rfl, rfl⟩ | ⟨rfl, rfl⟩ <;>
    exact ⟨by decide, by decide⟩

end ItemFilter

namespace ItemFilter

/-- A lowercase token that the abbreviation table expands stays a
prefix of its expansion, and the expansion is itself lowercase: every
expansion in the table begins with its abbreviation, so replacing the
last part only extends the string. -/
theorem expand_keeps_token_prefix (t : Str) (hlow : lower t = t)
    (hne : expand_abbreviation t ≠ t) :
    isPre t (expand_abbreviation t) = true ∧
      lower (expand_abbreviation t) = expand_abbreviation t := by
  cases hrev : (splitU t).reverse with
  | nil =>
    exfalso
    apply hne
    unfold expand_abbreviation
    rw [hrev]
  | cons last rest =>
    cases rest with
    | nil =>
      exfalso
      apply hne
      unfold expand_abbreviation
      rw [hrev]
    | cons p2 revRest =>
      cases hfind : ABBREVIATION_MAP.find? fun kv => decide (kv.1 = last) with
      | none =>
        exfalso
        apply hne
        unfold expand_abbreviation
        rw [hrev]
        show (match Option.map (fun x => x.2)
            (List.find? (fun kv => decide (kv.1 = last)) ABBREVIATION_MAP) with
          | some v => joinU ((p2 :: revRest).reverse ++ [v])
          | none => t) = t
        rw [hfind]
        rfl
      | some kvp =>
        have hexp : expand_abbreviation t = joinU ((p2 :: revRest).reverse ++ [kvp.2]) := by
          unfold expand_abbreviation
          rw [hrev]
          show (match Option.map (fun x => x.2)
              (List.find? (fun kv => decide (kv.1 = last)) ABBREVIATION_MAP) with
            | some v => joinU ((p2 :: revRest).reverse ++ [v])
            | none => t) = joinU ((p2 :: revRest).reverse ++ [kvp.2])
          rw [hfind]
          rfl
        have hklast : kvp.1 = last := by simpa using List.find?_some hfind
        have hmem : (kvp.1, kvp.2) ∈ ABBREVIATION_MAP := by
          simpa using List.mem_of_find?_eq_some hfind
        obtain ⟨hvlow, hkv⟩ := abbrev_val kvp.1 kvp.2 hmem
        have hsplit : splitU t = (p2 :: revRest).reverse ++ [last] := by
          have h1 := congrArg List.reverse hrev
          rw [List.reverse_reverse] at h1
          rw [h1, List.reverse_cons]
        have ht : t = joinU ((p2 :: revRest).reverse ++ [last]) := by
          conv_lhs => rw [← join_split t, hsplit]
        constructor
        · rw [hexp]
          conv_lhs => rw [ht]
          exact isPre_joinU _ last kvp.2 (by rw [← hklast]; exact hkv)
        · rw [hexp, low_joinU]
          congr 1
          rw [List.map_append]
          have hmapsplit : (splitU t).map lower = splitU t := by
            have h1 := low_split t
            rw [hlow] at h1
            exact h1.symm
          rw [hsplit, List.map_append] at hmapsplit
          have hlen : (((p2 :: revRest).reverse.map lower)).length =
              ((p2 :: revRest).reverse).length := List.length_map _ _
          obtain ⟨hinit, -⟩ := List.append_inj hmapsplit hlen
          rw [hinit]
          simp [hvlow]

end ItemFilter

namespace ItemFilter

/-- Lowercasing is idempotent on characters. -/
theorem toLower_idem (c : Char) : (Char.toLower c).toLower = Char.toLower c := by
  have hdef : ∀ d : Char, Char.toLower d =
      if d.toNat ≥ 65 ∧ d.toNat ≤ 90 then Char.ofNat (d.toNat + 32) else d :=
    fun d => rfl
  by_cases hc : c.toNat ≥ 65 ∧ c.toNat ≤ 90
  · have h1 : Char.toLower c = Char.ofNat (c.toNat + 32) := by rw [hdef, if_pos hc]
    have h2 : (Char.toLower c).toNat = c.toNat + 32 := by
      rw [h1]
      exact toNat_ofNat_valid _ (by left; show c.toNat + 32 < 55296; omega)
    conv_lhs => rw [hdef]
    rw [if_neg (by rw [h2]; omega)]
  · have h1 : Char.toLower c = c := by rw [hdef, if_neg hc]
    rw [h1]
    exact h1

/-- Lowercasing is idempotent on strings. -/
theorem lower_lower (s : Str) : lower (lower s) = lower s := by
  unfold lower
  rw [List.map_map]
  exact List.map_congr_left fun c _ => toLower_idem c

/-- Stripping keeps only characters of the original string. -/
theorem mem_stripWs (c : Char) (s : Str) (h : c ∈ stripWs s) : c ∈ s := by
  unfold stripWs at h
  rw [List.mem_reverse] at h
  have h1 := (List.dropWhile_sublist _).mem h
  rw [List.mem_reverse] at h1
  exact (List.dropWhile_sublist _).mem h1

/-- A string fixed by lowercasing stays fixed after stripping. -/
theorem lower_stripWs_fix (s : Str) (h : lower s = s) : lower (stripWs s) = stripWs s := by
  have hpt : ∀ c ∈ s, Char.toLower c = c := by
    intro c hc
    induction s with
    | nil => cases hc
    | cons d ds ih =>
      injection h with h1 h2
      rcases List.mem_cons.mp hc with rfl | hc'
      · exact h1
      · exact ih h2 hc'
  unfold lower
  conv_rhs => rw [← List.map_id (stripWs s)]
  exact List.map_congr_left fun c hc => hpt c (mem_stripWs c s hc)

/-- The normalised token is fixed by lowercasing. -/
theorem lower_norm (tok : Str) :
    lower (stripWs (lower tok)) = stripWs (lower tok) :=
  lower_stripWs_fix (lower tok) (lower_lower tok)

/-- An entry that equals the token's abbreviation expansion (and not
the token itself) is classified by `filter_items_by_name` at the
*prefix* tier with weight 2 and score 0.8 — never at the abbreviation
tier — because classification tests the prefix tier first and every
expansion extends the token. -/
theorem classify_expansion_as_pref (t item : Str) (hlow : lower t = t)
    (hne : expand_abbreviation t ≠ t) (hnex : lower item ≠ t)
    (hmatch : lower item = lower (expand_abbreviation t)) :
    classify t item = some (item, .pref, (4, 5)) := by
  obtain ⟨hpre, hexplow⟩ := expand_keeps_token_prefix t hlow hne
  have hc : isPre t (lower item) = true := by
    rw [hmatch, hexplow]
    exact hpre
  simp only [classify]
  rw [if_neg hnex, if_pos hc]

/-- The propositional reading of `keyLt`. -/
theorem keyLt_true_iff (a b : Nat × Score) :
    keyLt a b = true ↔
      a.1 < b.1 ∨ (a.1 = b.1 ∧ a.2.1 * b.2.2 < b.2.1 * a.2.2) := by
  unfold keyLt sLt
  simp

/-- `keyLt` is asymmetric. -/
theorem keyLt_asymm (a b : Nat × Score) (h : keyLt a b = true) : keyLt b a = false := by
  rw [keyLt_true_iff] at h
  rw [Bool.eq_false_iff]
  intro hba
  rw [keyLt_true_iff] at hba
  rcases h with h | ⟨he, hs⟩ <;> rcases hba with hb | ⟨hbe, hbs⟩ <;> omega

/-- Failing `keyLt` is transitive when the middle score's denominator
is positive. -/
theorem keyLt_negtrans (a b c : Nat × Score) (hb : 0 < b.2.2)
    (h1 : keyLt a b = false) (h2 : keyLt b c = false) : keyLt a c = false := by
  have h1' : ¬(a.1 < b.1 ∨ (a.1 = b.1 ∧ a.2.1 * b.2.2 < b.2.1 * a.2.2)) := by
    intro hp
    rw [← keyLt_true_iff a b, h1] at hp
    cases hp
  have h2' : ¬(b.1 < c.1 ∨ (b.1 = c.1 ∧ b.2.1 * c.2.2 < c.2.1 * b.2.2)) := by
    intro hp
    rw [← keyLt_true_iff b c, h2] at hp
    cases hp
  rw [Bool.eq_false_iff]
  intro hac
  rw [keyLt_true_iff] at hac
  push_neg at h1' h2'
  obtain ⟨h1p, h1s⟩ := h1'
  obtain ⟨h2p, h2s⟩ := h2'
  rcases hac with hlt | ⟨hpe, hs⟩
  · omega
  · have hab : a.1 = b.1 := by omega
    have hbc : b.1 = c.1 := by omega
    have k1 : b.2.1 * a.2.2 ≤ a.2.1 * b.2.2 := by
      have := h1s hab
      omega
    have k2 : c.2.1 * b.2.2 ≤ b.2.1 * c.2.2 := by
      have := h2s hbc
      omega
    have k5 : c.2.1 * a.2.2 * b.2.2 ≤ a.2.1 * c.2.2 * b.2.2 := by
      calc c.2.1 * a.2.2 * b.2.2 = c.2.1 * b.2.2 * a.2.2 := by ring
        _ ≤ b.2.1 * c.2.2 * a.2.2 := Nat.mul_le_mul_right _ k2
        _ = b.2.1 * a.2.2 * c.2.2 := by ring
        _ ≤ a.2.1 * b.2.2 * c.2.2 := Nat.mul_le_mul_right _ k1
        _ = a.2.1 * c.2.2 * b.2.2 := by ring
    have k6 : c.2.1 * a.2.2 ≤ a.2.1 * c.2.2 := Nat.le_of_mul_le_mul_right k5 hb
    omega

/-- Stable insertion into the descending sort keeps the elements. -/
theorem insMatch_perm (x : Str × MatchKind × Score) (l : List (Str × MatchKind × Score)) :
    List.Perm (insMatch x l) (x :: l) := by
  induction l with
  | nil => exact List.Perm.refl _
  | cons y ys ih =>
    unfold insMatch
    by_cases h : keyLt (mKey x) (mKey y) = true
    · rw [if_pos h]
      exact List.Perm.trans (List.Perm.cons y ih) (List.Perm.swap x y ys)
    · rw [if_neg h]

/-- The descending sort of `filter_items_by_name` is a permutation. -/
theorem sortMatches_perm (l : List (Str × MatchKind × Score)) :
    List.Perm (sortMatches l) l := by
  induction l with
  | nil => exact List.Perm.refl _
  | cons x xs ih =>
    exact List.Perm.trans (insMatch_perm x (sortMatches xs)) (List.Perm.cons x ih)

/-- Stable insertion preserves descending order by `(priority, score)`. -/
theorem insMatch_pairwise (x : Str × MatchKind × Score)
    (l : List (Str × MatchKind × Score))
    (hden : ∀ m ∈ l, 0 < m.2.2.2)
    (h : l.Pairwise fun a b => keyLt (mKey a) (mKey b) = false) :
    (insMatch x l).Pairwise fun a b => keyLt (mKey a) (mKey b) = false := by
  induction l with
  | nil => simp [insMatch]
  | cons y ys ih =>
    rw [List.pairwise_cons] at h
    obtain ⟨hy, hys⟩ := h
    unfold insMatch
    by_cases hc : keyLt (mKey x) (mKey y) = true
    · rw [if_pos hc]
      rw [List.pairwise_cons]
      refine ⟨?_, ih (fun m hm => hden m (List.mem_cons_of_mem y hm)) hys⟩
      intro a ha
      rcases List.mem_cons.mp ((insMatch_perm x ys).mem_iff.mp ha) with rfl | ha'
      · exact keyLt_asymm _ _ hc
      · exact hy a ha'
    · rw [if_neg hc]
      rw [List.pairwise_cons]
      have hxy : keyLt (mKey x) (mKey y) = false := Bool.eq_false_iff.mpr hc
      refine ⟨?_, List.pairwise_cons.mpr ⟨hy, hys⟩⟩
      intro a ha
      rcases List.mem_cons.mp ha with rfl | ha'
      · exact hxy
      · exact keyLt_negtrans (mKey x) (mKey y) (mKey a)
          (hden y (List.mem_cons_self y ys)) hxy (hy a ha')

/-- The sort of `filter_items_by_name` is descending by
`(priority, score)`. -/
theorem sortMatches_pairwise (l : List (Str × MatchKind × Score))
    (hden : ∀ m ∈ l, 0 < m.2.2.2) :
    (sortMatches l).Pairwise fun a b => keyLt (mKey a) (mKey b) = false := by
  induction l with
  | nil => simp [sortMatches]
  | cons x xs ih =>
    refine insMatch_pairwise x (sortMatches xs) ?_
      (ih fun m hm => hden m (List.mem_cons_of_mem x hm))
    intro m hm
    exact hden m (List.mem_cons_of_mem x ((sortMatches_perm xs).mem_iff.mp hm))

/-- Every classification carries a positive score denominator. -/
theorem classify_den_pos (t item : Str) (m : Str × MatchKind × Score)
    (h : classify t item = some m) : 0 < m.2.2.2 := by
  simp only [classify] at h
  split at h
  · cases h; exact Nat.one_pos
  · split at h
    · cases h; exact Nat.succ_pos _
    · split at h
      · cases h; exact Nat.succ_pos _
      · split at h
        · cases h
          exact similarity_den_pos t (lower item)
        · cases h

end ItemFilter

namespace ItemFilter

/-- No entry is ever classified at the abbreviation tier by
`filter_items_by_name`: an entry whose lowercasing equals the token's
abbreviation expansion is already a prefix match (every expansion in
`ABBREVIATION_MAP` begins with its abbreviation), and the prefix tier
is tested first. -/
theorem classify_never_abbr (t item : Str) (hlow : lower t = t)
    (m : Str × MatchKind × Score) (h : classify t item = some m) :
    m.2.1 ≠ MatchKind.abbr := by
  simp only [classify] at h
  split at h
  · cases h; exact fun hc => MatchKind.noConfusion hc
  · split at h
    · cases h; exact fun hc => MatchKind.noConfusion hc
    · split at h
      · exfalso
        next h1 h2 h3 =>
        obtain ⟨hxt, hil⟩ := h3
        obtain ⟨hpre, hexl⟩ := expand_keeps_token_prefix t hlow hxt
        apply h2
        rw [hil, hexl]
        exact hpre
      · split at h
        · cases h; exact fun hc => MatchKind.noConfusion hc
        · cases h

set_option maxRecDepth 40000 in
/-- C3: counterexample.  The token `iron_i` expands to `iron_ingot`,
`iron_ice` is only a prefix match, yet `filter_items_by_name`
classifies the expansion-matched entry `iron_ingot` at the *prefix*
tier (weight 2, score 0.8) and returns it *after* `iron_ice`: an entry
matched via abbreviation-expansion is not ranked above entries matched
only as prefixes. -/
theorem c3_expansion_not_ranked_above_prefix :
    expand_abbreviation "iron_i".data = "iron_ingot".data ∧
    isPre "iron_i".data (lower "iron_ice".data) = true ∧
    lower "iron_ice".data ≠ lower "iron_ingot".data ∧
    classify "iron_i".data "iron_ingot".data
      = some ("iron_ingot".data, MatchKind.pref, (4, 5)) ∧
    filter_items_by_name "iron_i".data ["iron_ice".data, "iron_ingot".data]
      = ["iron_ice".data, "iron_ingot".data] := by
  decide

/-- C3 (amended): for a non-empty token, `filter_items_by_name` assigns
the priority weights exact=4, abbreviation=3, prefix=2, fuzzy=1 (scores
as tiebreak) and returns the classified entries sorted stably
descending by `(weight, score)`; but classification tests the prefix
tier *before* the abbreviation tier (the reverse of `fuzzy_match_item`),
and since every abbreviation expansion begins with its abbreviation the
abbreviation tier is unreachable: an entry matching the token's
expansion is classified at the prefix tier with score 0.8, tying with
— not outranking — plain prefix matches. -/
theorem c3_filter_weights_and_sort (tok : Str) (items : List Str)
    (hne : tok ≠ []) :
    (matchPriority MatchKind.exact = 4 ∧ matchPriority MatchKind.abbr = 3 ∧
       matchPriority MatchKind.pref = 2 ∧ matchPriority MatchKind.fuzzy = 1) ∧
    (∃ ms, List.Perm ms (items.filterMap (classify (stripWs (lower tok)))) ∧
       ms.Pairwise (fun a b => keyLt (mKey a) (mKey b) = false) ∧
       filter_items_by_name tok items = ms.map (·.1)) ∧
    (∀ item m, classify (stripWs (lower tok)) item = some m →
       m.2.1 ≠ MatchKind.abbr) ∧
    (∀ item, lower item ≠ stripWs (lower tok) →
       expand_abbreviation (stripWs (lower tok)) ≠ stripWs (lower tok) →
       lower item = lower (expand_abbreviation (stripWs (lower tok))) →
       classify (stripWs (lower tok)) item
         = some (item, MatchKind.pref, (4, 5))) := by
  refine ⟨⟨rfl, rfl, rfl, rfl⟩, ?_, ?_, ?_⟩
  · refine ⟨sortMatches (items.filterMap (classify (stripWs (lower tok)))),
      sortMatches_perm _, sortMatches_pairwise _ ?_, ?_⟩
    · intro m hm
      obtain ⟨item, _, hcl⟩ := List.mem_filterMap.mp hm
      exact classify_den_pos _ _ _ hcl
    · simp only [filter_items_by_name, if_neg hne]
  · intro item m hcl
    exact classify_never_abbr _ _ (lower_norm tok) m hcl
  · intro item hnex hxt hmatch
    exact classify_expansion_as_pref _ _ (lower_norm tok) hxt hnex hmatch

/-- C3 witness: the amended theorem instantiated at a concrete token
and catalog. -/
theorem c3_filter_weights_and_sort_witness :
    ("x".data ≠ ([] : List Char)) ∧
    ((matchPriority MatchKind.exact = 4 ∧ matchPriority MatchKind.abbr = 3 ∧
       matchPriority MatchKind.pref = 2 ∧ matchPriority MatchKind.fuzzy = 1) ∧
    (∃ ms, List.Perm ms
         (List.filterMap (classify (stripWs (lower "x".data))) []) ∧
       ms.Pairwise (fun a b => keyLt (mKey a) (mKey b) = false) ∧
       filter_items_by_name "x".data [] = ms.map (·.1)) ∧
    (∀ item m, classify (stripWs (lower "x".data)) item = some m →
       m.2.1 ≠ MatchKind.abbr) ∧
    (∀ item, lower item ≠ stripWs (lower "x".data) →
       expand_abbreviation (stripWs (lower "x".data)) ≠ stripWs (lower "x".data) →
       lower item = lower (expand_abbreviation (stripWs (lower "x".data))) →
       classify (stripWs (lower "x".data)) item
         = some (item, MatchKind.pref, (4, 5)))) :=
  ⟨by decide, c3_filter_weights_and_sort "x".data [] (by decide)⟩

end ItemFilter


namespace ItemFilter

/-- The common-prefix length is at most the first length. -/
theorem extLen_le_left : ∀ x y : Str, extLen x y ≤ x.length
  | [], _ => Nat.le_refl 0
  | _ :: _, [] => Nat.zero_le _
  | a :: as, b :: bs => by
    unfold extLen
    split
    · exact Nat.succ_le_succ (extLen_le_left as bs)
    · exact Nat.zero_le _

/-- The common-prefix length is at most the second length. -/
theorem extLen_le_right : ∀ x y : Str, extLen x y ≤ y.length
  | [], _ => Nat.zero_le _
  | _ :: _, [] => Nat.le_refl 0
  | a :: as, b :: bs => by
    unfold extLen
    split
    · exact Nat.succ_le_succ (extLen_le_right as bs)
    · exact Nat.zero_le _

/-- The common prefix measured by `extLen` really is shared. -/
theorem extLen_take : ∀ x y : Str, x.take (extLen x y) = y.take (extLen x y)
  | [], _ => by simp [extLen]
  | _ :: _, [] => by simp [extLen]
  | a :: as, b :: bs => by
    unfold extLen
    split
    · next h =>
      simp only [List.take_succ_cons]
      rw [extLen_take as bs, h]
    · simp

/-- A list is its own common prefix in full. -/
theorem extLen_self : ∀ x : Str, extLen x x = x.length
  | [] => rfl
  | a :: as => by
    unfold extLen
    rw [if_pos rfl, extLen_self as]
    rfl

/-- The fold underlying `flm` returns its seed or a list member. -/
theorem flmFold_mem (l : List (Nat × Nat × Nat)) :
    ∀ init : Nat × Nat × Nat,
      l.foldl (fun acc c => if acc.2.2 < c.2.2 then c else acc) init = init ∨
      l.foldl (fun acc c => if acc.2.2 < c.2.2 then c else acc) init ∈ l := by
  induction l with
  | nil => intro init; exact Or.inl rfl
  | cons x xs ih =>
    intro init
    rw [List.foldl_cons]
    by_cases h : init.2.2 < x.2.2
    · rw [if_pos h]
      rcases ih x with he | hm
      · exact Or.inr (by rw [he]; exact List.mem_cons_self x xs)
      · exact Or.inr (List.mem_cons_of_mem x hm)
    · rw [if_neg h]
      rcases ih init with he | hm
      · exact Or.inl he
      · exact Or.inr (List.mem_cons_of_mem x hm)

/-- A seed dominating every list element survives the `flm` fold. -/
theorem flmFold_fixed (l : List (Nat × Nat × Nat)) :
    ∀ init : Nat × Nat × Nat, (∀ c ∈ l, c.2.2 ≤ init.2.2) →
      l.foldl (fun acc c => if acc.2.2 < c.2.2 then c else acc) init = init := by
  induction l with
  | nil => intro init _; rfl
  | cons x xs ih =>
    intro init h
    rw [List.foldl_cons, if_neg (Nat.not_lt.mpr (h x (List.mem_cons_self x xs)))]
    exact ih init fun c hc => h c (List.mem_cons_of_mem x hc)

/-- Every candidate block is in range and carries the true extension
length at its position. -/
theorem mem_cands (a b : Str) (c : Nat × Nat × Nat) (h : c ∈ cands a b) :
    c.1 < a.length ∧ c.2.1 < b.length ∧
      c.2.2 = extLen (a.drop c.1) (b.drop c.2.1) := by
  unfold cands at h
  rw [List.mem_flatMap] at h
  obtain ⟨i, hi, hmem⟩ := h
  rw [List.mem_map] at hmem
  obtain ⟨j, hj, hc⟩ := hmem
  rw [List.mem_range] at hi hj
  rw [← hc]
  exact ⟨hi, hj, rfl⟩

/-- What `find_longest_match` returns: either no match at all, or a
genuine block of the two strings. -/
theorem flm_spec (a b : Str) :
    (flm a b).2.2 = 0 ∨
      ((flm a b).1 < a.length ∧ (flm a b).2.1 < b.length ∧
        (flm a b).2.2 = extLen (a.drop (flm a b).1) (b.drop (flm a b).2.1)) := by
  unfold flm
  rcases flmFold_mem (cands a b) (0, 0, 0) with he | hm
  · exact Or.inl (by rw [he])
  · exact Or.inr (mem_cands a b _ hm)

/-- The total matched size never exceeds either length. -/
theorem rmatchF_le : ∀ (fuel : Nat) (a b : Str),
    rmatchF fuel a b ≤ min a.length b.length := by
  intro fuel
  induction fuel with
  | zero => intro a b; exact Nat.zero_le _
  | succ n ih =>
    intro a b
    simp only [rmatchF]
    split
    · exact Nat.zero_le _
    · next hk0 =>
      rcases flm_spec a b with h0 | ⟨hi, hj, hk⟩
      · exact absurd h0 hk0
      have hL := ih (a.take (flm a b).1) (b.take (flm a b).2.1)
      have hR := ih (a.drop ((flm a b).1 + (flm a b).2.2))
        (b.drop ((flm a b).2.1 + (flm a b).2.2))
      have hk1 : (flm a b).2.2 ≤ (a.drop (flm a b).1).length :=
        hk ▸ extLen_le_left _ _
      have hk2 : (flm a b).2.2 ≤ (b.drop (flm a b).2.1).length :=
        hk ▸ extLen_le_right _ _
      rw [List.length_take, List.length_take] at hL
      rw [List.length_drop, List.length_drop] at hR
      rw [List.length_drop] at hk1
      rw [List.length_drop] at hk2
      omega


/-- A full-length match forces the two lists to be equal. -/
theorem rmatchF_full : ∀ (fuel : Nat) (a b : Str),
    rmatchF fuel a b = a.length → a.length = b.length → a = b := by
  intro fuel
  induction fuel with
  | zero =>
    intro a b h hlen
    simp only [rmatchF] at h
    have ha : a = [] := List.eq_nil_of_length_eq_zero h.symm
    have hb : b = [] := List.eq_nil_of_length_eq_zero (by omega)
    rw [ha, hb]
  | succ n ih =>
    intro a b h hlen
    simp only [rmatchF] at h
    split at h
    · have ha : a = [] := List.eq_nil_of_length_eq_zero h.symm
      have hb : b = [] := List.eq_nil_of_length_eq_zero (by omega)
      rw [ha, hb]
    · next hk0 =>
      rcases flm_spec a b with h0 | ⟨hi, hj, hk⟩
      · exact absurd h0 hk0
      have hL := rmatchF_le n (a.take (flm a b).1) (b.take (flm a b).2.1)
      have hR := rmatchF_le n (a.drop ((flm a b).1 + (flm a b).2.2))
        (b.drop ((flm a b).2.1 + (flm a b).2.2))
      have hk1 : (flm a b).2.2 ≤ (a.drop (flm a b).1).length :=
        hk ▸ extLen_le_left _ _
      have hk2 : (flm a b).2.2 ≤ (b.drop (flm a b).2.1).length :=
        hk ▸ extLen_le_right _ _
      rw [List.length_take, List.length_take] at hL
      rw [List.length_drop, List.length_drop] at hR
      rw [List.length_drop] at hk1
      rw [List.length_drop] at hk2
      have hLi : rmatchF n (a.take (flm a b).1) (b.take (flm a b).2.1)
          = (flm a b).1 := by omega
      have hij : (flm a b).2.1 = (flm a b).1 := by omega
      have hRv : rmatchF n (a.drop ((flm a b).1 + (flm a b).2.2))
          (b.drop ((flm a b).2.1 + (flm a b).2.2))
          = a.length - ((flm a b).1 + (flm a b).2.2) := by omega
      have e1 : a.take (flm a b).1 = b.take (flm a b).2.1 := by
        refine ih _ _ ?_ ?_
        · rw [hLi, List.length_take]
          omega
        · rw [List.length_take, List.length_take]
          omega
      have e2 : (a.drop (flm a b).1).take (flm a b).2.2
          = (b.drop (flm a b).2.1).take (flm a b).2.2 := by
        have := extLen_take (a.drop (flm a b).1) (b.drop (flm a b).2.1)
        rw [← hk] at this
        exact this
      have e3 : a.drop ((flm a b).1 + (flm a b).2.2)
          = b.drop ((flm a b).2.1 + (flm a b).2.2) := by
        refine ih _ _ ?_ ?_
        · rw [hRv, List.length_drop]
        · rw [List.length_drop, List.length_drop]
          omega
      have hsplit : ∀ l : Str, ∀ i k : Nat,
          l = l.take i ++ ((l.drop i).take k ++ (l.drop i).drop k) := by
        intro l i k
        rw [List.take_append_drop, List.take_append_drop]
      calc a = a.take (flm a b).1 ++ ((a.drop (flm a b).1).take (flm a b).2.2
                ++ (a.drop (flm a b).1).drop (flm a b).2.2) :=
            hsplit a (flm a b).1 (flm a b).2.2
        _ = b.take (flm a b).2.1 ++ ((b.drop (flm a b).2.1).take (flm a b).2.2
                ++ (b.drop (flm a b).2.1).drop (flm a b).2.2) := by
            rw [e1, e2, List.drop_drop, List.drop_drop, e3]
        _ = b := (hsplit b (flm a b).2.1 (flm a b).2.2).symm

/-- On identical non-empty inputs the longest match is the whole
string, found at the very first scan position. -/
theorem flm_self (a : Str) (h : a ≠ []) : flm a a = (0, 0, a.length) := by
  obtain ⟨rest, hrest⟩ : ∃ rest, cands a a = (0, 0, extLen a a) :: rest := by
    cases a with
    | nil => exact absurd rfl h
    | cons x xs =>
      apply Exists.intro
      unfold cands
      rw [List.length_cons, List.range_succ_eq_map, List.flatMap_cons,
        List.map_cons, List.cons_append]
      rfl
  have hpos : 0 < a.length := List.length_pos.mpr h
  unfold flm
  rw [hrest, List.foldl_cons, extLen_self]
  rw [if_pos (by simpa using hpos)]
  refine flmFold_fixed rest (0, 0, a.length) ?_
  intro c hc
  have hmem : c ∈ cands a a := by
    rw [hrest, extLen_self]
    exact List.mem_cons_of_mem _ hc
  obtain ⟨hi, hj, hk⟩ := mem_cands a a c hmem
  have := extLen_le_left (a.drop c.1) (a.drop c.2.1)
  rw [List.length_drop] at this
  simp only [hk]
  omega

/-- A string fully matches itself. -/
theorem rmatch_self (a : Str) : rmatch a a = a.length := by
  by_cases hne : a = []
  · rw [hne]; rfl
  · obtain ⟨m, hm⟩ : ∃ m, a.length + a.length = m + 1 := by
      refine ⟨a.length + a.length - 1, ?_⟩
      have : 0 < a.length := List.length_pos.mpr hne
      omega
    unfold rmatch
    rw [hm]
    simp only [rmatchF, flm_self a hne]
    rw [if_neg (by simpa using (List.length_pos.mpr hne).ne.symm)]
    simp [rmatchF_nil_right]

/-- Similarity scores, read as rationals, lie in `[0, 1]`. -/
theorem similarity_range (a b : Str) :
    0 ≤ scoreQ (similarity a b) ∧ scoreQ (similarity a b) ≤ 1 := by
  unfold similarity ratioS
  by_cases h : (lower a).length + (lower b).length = 0
  · rw [if_pos h]
    norm_num [scoreQ]
  · rw [if_neg h]
    have hM := rmatchF_le ((lower a).length + (lower b).length) (lower a) (lower b)
    have h2M : 2 * rmatch (lower a) (lower b)
        ≤ (lower a).length + (lower b).length := by
      unfold rmatch
      omega
    have hT : (0:ℚ) < (((lower a).length + (lower b).length : Nat) : ℚ) := by
      exact_mod_cast Nat.pos_of_ne_zero h
    constructor
    · simp only [scoreQ]
      positivity
    · simp only [scoreQ]
      rw [div_le_one hT]
      exact_mod_cast h2M

/-- The similarity score is `1` exactly when the lowercased inputs are
equal. -/
theorem similarity_eq_one_iff (a b : Str) :
    scoreQ (similarity a b) = 1 ↔ lower a = lower b := by
  constructor
  · intro h
    unfold similarity ratioS at h
    by_cases h0 : (lower a).length + (lower b).length = 0
    · have ha : lower a = [] := List.eq_nil_of_length_eq_zero (by omega)
      have hb : lower b = [] := List.eq_nil_of_length_eq_zero (by omega)
      rw [ha, hb]
    · rw [if_neg h0] at h
      simp only [scoreQ] at h
      have hT : (0:ℚ) < (((lower a).length + (lower b).length : Nat) : ℚ) := by
        exact_mod_cast Nat.pos_of_ne_zero h0
      rw [div_eq_one_iff_eq (ne_of_gt hT)] at h
      have hNat : 2 * rmatch (lower a) (lower b)
          = (lower a).length + (lower b).length := by exact_mod_cast h
      have hM := rmatchF_le ((lower a).length + (lower b).length) (lower a) (lower b)
      unfold rmatch at hNat
      have hlen : (lower a).length = (lower b).length := by omega
      have hful : rmatchF ((lower a).length + (lower b).length) (lower a) (lower b)
          = (lower a).length := by omega
      exact rmatchF_full _ _ _ hful hlen
  · intro h
    unfold similarity ratioS
    rw [h, rmatch_self]
    by_cases h0 : (lower b).length + (lower b).length = 0
    · rw [if_pos h0]
      norm_num [scoreQ]
    · rw [if_neg h0]
      simp only [scoreQ]
      rw [div_eq_one_iff_eq (by exact_mod_cast h0)]
      push_cast
      ring

set_option maxRecDepth 40000 in
/-- C8: counterexample.  `similarity` scores the distinct strings `A`
and `a` at `1.0` (it lowercases both sides first), and it is not
symmetric: difflib's ratio of `acb` against `babbb` is `1/2`, but of
`babbb` against `acb` is `1/4`. -/
theorem c8_case_insensitive_one_and_asymmetry :
    ("A".data ≠ "a".data ∧ scoreQ (similarity "A".data "a".data) = 1) ∧
    scoreQ (similarity "acb".data "babbb".data)
      ≠ scoreQ (similarity "babbb".data "acb".data) := by
  have h1 : similarity "A".data "a".data = (2, 2) := by decide
  have h2 : similarity "acb".data "babbb".data = (4, 8) := by decide
  have h3 : similarity "babbb".data "acb".data = (2, 8) := by decide
  refine ⟨⟨by decide, ?_⟩, ?_⟩
  · rw [h1]
    norm_num [scoreQ]
  · rw [h2, h3]
    norm_num [scoreQ]

/-- C8 (amended): the similarity score is normalized to `[0, 1]` and
equals `1` exactly when the *lowercased* strings coincide (distinct
strings differing only in case also score `1`); it is not symmetric in
general.  With the first three tiers empty, the resolver's fuzzy tier
returns no match when every catalog entry scores below the `0.6`
threshold, and otherwise accepts an entry carrying the maximal score,
which meets the threshold. -/
theorem c8_similarity_normalized_fuzzy_floor (a b tok : Str) (items : List Str)
    (hnoex : ∀ e ∈ items, lower e ≠ stripWs (lower tok))
    (h2 : expand_abbreviation (stripWs (lower tok)) = stripWs (lower tok) ∨
      ∀ e ∈ items, lower e ≠ lower (expand_abbreviation (stripWs (lower tok))))
    (hnopre : ∀ e ∈ items, isPre (stripWs (lower tok)) (lower e) = false) :
    (0 ≤ scoreQ (similarity a b) ∧ scoreQ (similarity a b) ≤ 1) ∧
    (scoreQ (similarity a b) = 1 ↔ lower a = lower b) ∧
    ((∀ e ∈ items,
        sLe FUZZY_MATCH_THRESHOLD (similarity (stripWs (lower tok)) (lower e)) = false) →
      fuzzy_match_item tok items = none) ∧
    ((∃ e ∈ items,
        sLe FUZZY_MATCH_THRESHOLD (similarity (stripWs (lower tok)) (lower e)) = true) →
      ∃ e ∈ items,
        sLe FUZZY_MATCH_THRESHOLD (similarity (stripWs (lower tok)) (lower e)) = true ∧
        (∀ e' ∈ items,
          sLe (similarity (stripWs (lower tok)) (lower e'))
            (similarity (stripWs (lower tok)) (lower e)) = true) ∧
        fuzzy_match_item tok items = some (e, MatchKind.fuzzy)) := by
  refine ⟨similarity_range a b, similarity_eq_one_iff a b, ?_, ?_⟩
  · intro hbelow
    exact resolve_notfound tok items hnoex h2 hnopre hbelow
  · intro hfz
    obtain ⟨e, he, hth, hmax, hres⟩ := resolve_fuzzy tok items hnoex h2 hnopre hfz
    exact ⟨e, he, hth, hmax, hres⟩

/-- C8 witness: the amended theorem instantiated at concrete strings
and a concrete catalog. -/
theorem c8_similarity_normalized_fuzzy_floor_witness :
    ((∀ e ∈ ["qqqq".data], lower e ≠ stripWs (lower "zzz".data)) ∧
     (expand_abbreviation (stripWs (lower "zzz".data)) = stripWs (lower "zzz".data) ∨
       ∀ e ∈ ["qqqq".data],
         lower e ≠ lower (expand_abbreviation (stripWs (lower "zzz".data)))) ∧
     (∀ e ∈ ["qqqq".data], isPre (stripWs (lower "zzz".data)) (lower e) = false)) ∧
    ((0 ≤ scoreQ (similarity "A".data "a".data) ∧
        scoreQ (similarity "A".data "a".data) ≤ 1) ∧
     (scoreQ (similarity "A".data "a".data) = 1 ↔ lower "A".data = lower "a".data) ∧
     ((∀ e ∈ ["qqqq".data],
         sLe FUZZY_MATCH_THRESHOLD
           (similarity (stripWs (lower "zzz".data)) (lower e)) = false) →
       fuzzy_match_item "zzz".data ["qqqq".data] = none) ∧
     ((∃ e ∈ ["qqqq".data],
         sLe FUZZY_MATCH_THRESHOLD
           (similarity (stripWs (lower "zzz".data)) (lower e)) = true) →
       ∃ e ∈ ["qqqq".data],
         sLe FUZZY_MATCH_THRESHOLD
           (similarity (stripWs (lower "zzz".data)) (lower e)) = true ∧
         (∀ e' ∈ ["qqqq".data],
           sLe (similarity (stripWs (lower "zzz".data)) (lower e'))
             (similarity (stripWs (lower "zzz".data)) (lower e)) = true) ∧
         fuzzy_match_item "zzz".data ["qqqq".data] = some (e, MatchKind.fuzzy))) :=
  ⟨⟨by decide, by decide, by decide⟩,
    c8_similarity_normalized_fuzzy_floor "A".data "a".data "zzz".data ["qqqq".data]
      (by decide) (by decide) (by decide)⟩

end ItemFilter

namespace Models

/-- The accumulator never exceeds the running-maximum fold. -/
theorem foldl_max_ge (l : List MachineR) :
    ∀ acc : Nat, acc ≤ l.foldl (fun a m => max a m.id) acc := by
  induction l with
  | nil => intro acc; exact Nat.le_refl _
  | cons x xs ih =>
    intro acc
    rw [List.foldl_cons]
    exact Nat.le_trans (Nat.le_max_left acc x.id) (ih (max acc x.id))

/-- Every member's id is bounded by the running-maximum fold. -/
theorem mem_le_foldl_max (l : List MachineR) :
    ∀ (acc : Nat) (m : MachineR), m ∈ l →
      m.id ≤ l.foldl (fun a m => max a m.id) acc := by
  induction l with
  | nil => intro acc m hm; cases hm
  | cons x xs ih =>
    intro acc m hm
    rw [List.foldl_cons]
    rcases List.mem_cons.mp hm with rfl | hm'
    · exact Nat.le_trans (Nat.le_max_right acc m.id) (foldl_max_ge xs _)
    · exact ih _ m hm'

/-- Writing an in-range status through `Machine.update_status` keeps
every row's status within `{online, offline}`. -/
theorem update_status_keeps (s : ServerState) (mid : Nat) (v : String) (now : Int)
    (hv : v = "online" ∨ v = "offline")
    (hinv : ∀ m ∈ s.machines, m.status = "online" ∨ m.status = "offline") :
    ∀ m ∈ (Machine_update_status s mid v now).machines,
      m.status = "online" ∨ m.status = "offline" := by
  intro m hm
  simp only [Machine_update_status, List.mem_map] at hm
  obtain ⟨m0, hm0, rfl⟩ := hm
  by_cases h0 : m0.id = mid
  · rw [if_pos h0]
    exact hv
  · rw [if_neg h0]
    exact hinv m0 hm0

/-- C7 (amended): a machine's status is initialised to `'online'` by
registration and kept within `{online, offline}` by registration,
command polling, the liveness sweep and disconnect; the status-report
operation is the exception: for an existing machine owned by the
requester it stores the client-supplied status string verbatim, so the
stored status need not remain within `{online, offline}`. -/
theorem c7_status_lifecycle (s : ServerState) (uid akid mid : Nat)
    (name st : String) (mid? : Option Nat) (now : Int)
    (hinv : ∀ m ∈ s.machines, m.status = "online" ∨ m.status = "offline") :
    (∀ r, (Machine_register s uid akid name now).1 = some r →
       r.status = "online") ∧
    (∀ m ∈ (Machine_register s uid akid name now).2.machines,
       m.status = "online" ∨ m.status = "offline") ∧
    (∀ name?, cc_auth s uid akid name? now =
       Machine_register s uid akid (name?.getD "Unknown Machine") now) ∧
    (∀ m ∈ (cc_get_commands s uid mid? now).2.machines,
       m.status = "online" ∨ m.status = "offline") ∧
    (∀ m ∈ (discover_peripherals s now).machines,
       m.status = "online" ∨ m.status = "offline") ∧
    (∀ m ∈ (delete_machine s uid mid now).2.machines,
       m.status = "online" ∨ m.status = "offline") ∧
    (∀ m0, mid ≠ 0 → Machine_get_by_id s mid = some m0 → m0.user_id = uid →
       cc_update_status s uid (some mid) (some st) now =
         (.okSimple, Machine_update_status s mid st now) ∧
       ∀ m' ∈ (Machine_update_status s mid st now).machines,
         m'.id = mid → m'.status = st) := by
  refine ⟨?_, ?_, fun _ => rfl, ?_, ?_, ?_, ?_⟩
  · intro r hr
    cases hfind : s.machines.find? fun m =>
        decide (m.user_id = uid) && decide (m.api_key_id = some akid) with
    | some existing =>
      simp only [Machine_register, hfind] at hr
      have hpred := List.find?_some hr
      have hmem := List.mem_of_find?_eq_some hr
      rw [decide_eq_true_eq] at hpred
      rw [List.mem_map] at hmem
      obtain ⟨m0, hm0, rfl⟩ := hmem
      by_cases h0 : m0.id = existing.id
      · rw [if_pos h0]
      · rw [if_neg h0] at hpred
        exact absurd hpred h0
    | none =>
      simp only [Machine_register, hfind] at hr
      have hpred := List.find?_some hr
      have hmem := List.mem_of_find?_eq_some hr
      rw [decide_eq_true_eq] at hpred
      rcases List.mem_append.mp hmem with hl | hr'
      · have := mem_le_foldl_max s.machines 0 r hl
        simp only [next_machine_id] at hpred
        omega
      · rcases List.mem_singleton.mp hr' with rfl
        rfl
  · intro m hm
    cases hfind : s.machines.find? fun m =>
        decide (m.user_id = uid) && decide (m.api_key_id = some akid) with
    | some existing =>
      simp only [Machine_register, hfind, List.mem_map] at hm
      obtain ⟨m0, hm0, rfl⟩ := hm
      by_cases h0 : m0.id = existing.id
      · rw [if_pos h0]
        exact Or.inl rfl
      · rw [if_neg h0]
        exact hinv m0 hm0
    | none =>
      simp only [Machine_register, hfind, List.mem_append] at hm
      rcases hm with hl | hr'
      · exact hinv m hl
      · rcases List.mem_singleton.mp hr' with rfl
        exact Or.inl rfl
  · intro m hm
    simp only [cc_get_commands] at hm
    split at hm
    · exact hinv m hm
    · split at hm
      next m0 hfind =>
        split at hm
        · exact hinv m hm
        · exact update_status_keeps s _ "online" now (Or.inl rfl) hinv m hm
      next hfind => exact hinv m hm
  · intro m hm
    rw [discover_peripherals_eq_self] at hm
    exact hinv m hm
  · intro m hm
    simp only [delete_machine] at hm
    split at hm
    · exact hinv m hm
    · next m0 hfind =>
      split at hm
      · exact hinv m hm
      · simp only [List.mem_map] at hm
        obtain ⟨mm, hmm, rfl⟩ := hm
        by_cases h0 : mm.id = mid
        · rw [if_pos h0]
          exact Or.inr rfl
        · rw [if_neg h0]
          exact hinv mm hmm
  · intro m0 hmid hfind hown
    exact ⟨(c7_status_stored_verbatim s uid mid st now m0 hmid hfind hown).1,
      (c7_status_stored_verbatim s uid mid st now m0 hmid hfind hown).2.2⟩

/-- C7 witness: the amended theorem applied to a one-machine state. -/
theorem c7_status_lifecycle_witness :
    (∀ m ∈ (⟨[⟨1, 7, none, "m", 0, "online"⟩], [], [], [], 0, 0⟩ :
        ServerState).machines, m.status = "online" ∨ m.status = "offline") ∧
    ((∀ r, (Machine_register ⟨[⟨1, 7, none, "m", 0, "online"⟩], [], [], [], 0, 0⟩
          7 9 "n" 5).1 = some r → r.status = "online") ∧
     (∀ m ∈ (Machine_register ⟨[⟨1, 7, none, "m", 0, "online"⟩], [], [], [], 0, 0⟩
          7 9 "n" 5).2.machines, m.status = "online" ∨ m.status = "offline") ∧
     (∀ name?, cc_auth ⟨[⟨1, 7, none, "m", 0, "online"⟩], [], [], [], 0, 0⟩
          7 9 name? 5 =
        Machine_register ⟨[⟨1, 7, none, "m", 0, "online"⟩], [], [], [], 0, 0⟩
          7 9 (name?.getD "Unknown Machine") 5) ∧
     (∀ m ∈ (cc_get_commands ⟨[⟨1, 7, none, "m", 0, "online"⟩], [], [], [], 0, 0⟩
          7 (some 1) 5).2.machines, m.status = "online" ∨ m.status = "offline") ∧
     (∀ m ∈ (discover_peripherals ⟨[⟨1, 7, none, "m", 0, "online"⟩], [], [], [], 0, 0⟩
          5).machines, m.status = "online" ∨ m.status = "offline") ∧
     (∀ m ∈ (delete_machine ⟨[⟨1, 7, none, "m", 0, "online"⟩], [], [], [], 0, 0⟩
          7 1 5).2.machines, m.status = "online" ∨ m.status = "offline") ∧
     (∀ m0, (1 : Nat) ≠ 0 →
        Machine_get_by_id ⟨[⟨1, 7, none, "m", 0, "online"⟩], [], [], [], 0, 0⟩ 1 =
          some m0 →
        m0.user_id = 7 →
        cc_update_status ⟨[⟨1, 7, none, "m", 0, "online"⟩], [], [], [], 0, 0⟩
            7 (some 1) (some "banana") 5 =
          (.okSimple,
            Machine_update_status ⟨[⟨1, 7, none, "m", 0, "online"⟩], [], [], [], 0, 0⟩
              1 "banana" 5) ∧
        ∀ m' ∈ (Machine_update_status ⟨[⟨1, 7, none, "m", 0, "online"⟩], [], [], [], 0, 0⟩
            1 "banana" 5).machines, m'.id = 1 → m'.status = "banana")) :=
  ⟨by decide,
    c7_status_lifecycle ⟨[⟨1, 7, none, "m", 0, "online"⟩], [], [], [], 0, 0⟩
      7 9 1 "n" "banana" (some 1) 5 (by decide)⟩

end Models
